import Mathlib

/-!
Verification of the snapshot-serving route of the anthropic.com mirror
(`src/v2/app/www.anthropic.com/[[...path]]/route.ts`).

JavaScript strings are modelled as `List Char` (`JSStr`).  The Node
`path.posix` helpers used by the route (`normalize`, `extname`, `join`)
are embedded by their documented segment/character semantics, and the
route's own functions (`sanitizePath`, `resolveSnapshotFile`,
`getMimeType`, `serveFile`, `GET`, `HEAD`) are translated line by line.
The filesystem is abstracted as an existing-file predicate
`ex : JSStr → Bool` (for `fs.stat(..).isFile()`) and a content map
`fs : JSStr → Option JSStr` (for `fs.readFile`).
-/

abbrev JSStr : Type := List Char

/-! ### Generic separator splitting and joining (used by the `path.posix` model) -/

/-- Split a character list at every occurrence of `sep`.
Mirrors JavaScript `String.prototype.split` with a single-character
separator: the result is always non-empty, and separators at the ends
produce empty pieces. -/
def splitSep (sep : Char) : List Char → List (List Char)
  | [] => [[]]
  | c :: cs =>
    if c = sep then [] :: splitSep sep cs
    else (c :: (splitSep sep cs).headD []) :: (splitSep sep cs).tail

/-- Join pieces with a single-character separator, the inverse of `splitSep`.
Mirrors JavaScript `Array.prototype.join`. -/
def joinSep (sep : Char) : List (List Char) → List Char
  | [] => []
  | [s] => s
  | s :: t :: ss => s ++ sep :: joinSep sep (t :: ss)

/-! ### Node `path.posix` semantics -/

/-- One step of Node's `normalizeString` loop over one path segment.
Empty segments and `.` are dropped; `..` pops the last stacked segment
when possible, is kept only when `allowAboveRoot` is set, and is
otherwise discarded (this is how absolute paths clamp `..` at the
root). Every other segment is pushed. -/
def normStep (allowAboveRoot : Bool) (stack : List JSStr) (seg : JSStr) : List JSStr :=
  if seg = [] then stack
  else if seg = ['.'] then stack
  else if seg = ['.', '.'] then
    if stack ≠ [] ∧ stack.getLast? ≠ some ['.', '.'] then stack.dropLast
    else if allowAboveRoot then stack ++ [seg]
    else stack
  else stack ++ [seg]

/-- Node `path.posix.normalize`: resolve `.`/`..`, collapse repeated
slashes, keep a single leading slash for absolute paths and a single
trailing slash when the input had one; empty input yields `"."`. -/
def posixNormalize (p : JSStr) : JSStr :=
  if p = [] then ['.']
  else
    let isAbs : Bool := decide (p.head? = some '/')
    let trailingSep : Bool := decide (p.getLast? = some '/')
    let stack := (splitSep '/' p).foldl (normStep (! isAbs)) []
    let body := joinSep '/' stack
    if body = [] then
      if isAbs then ['/']
      else if trailingSep then ['.', '/']
      else ['.']
    else
      (if isAbs then ['/'] else []) ++ body ++ (if trailingSep then ['/'] else [])

/-- Node `path.posix.join` restricted to two arguments (the only arity
the route uses): drop empty arguments, join the rest with `/`, then
normalize; with no non-empty argument the result is `"."`. -/
def posixJoin2 (a b : JSStr) : JSStr :=
  let parts := [a, b].filter (fun s => s ≠ [])
  if parts = [] then ['.'] else posixNormalize (joinSep '/' parts)

/-- Drop every leading `/` (the route's `.replace(/^\/+/, "")`). -/
def stripLeadingSlashes (p : JSStr) : JSStr := p.dropWhile (fun c => c = '/')

/-- Drop every trailing `/` (the route's `.replace(/\/+$/, "")`). -/
def stripTrailingSlashes (p : JSStr) : JSStr :=
  (p.reverse.dropWhile (fun c => c = '/')).reverse

/-- The final path component of `x` (the part after the last `/`). -/
def lastComp (x : JSStr) : JSStr :=
  (x.reverse.takeWhile (fun c => c ≠ '/')).reverse

/-- Extension of a single path component, following Node's `extname`
scan: the suffix starting at the last dot, except that a component
without a dot, a component whose only extension-dot is its first
character (hidden files such as `.bashrc`), and the component `..`
have no extension. -/
def extOfComponent (c : JSStr) : JSStr :=
  let rc := c.reverse
  let pre := rc.takeWhile (fun x => x ≠ '.')
  let rest := rc.dropWhile (fun x => x ≠ '.')
  if rest.length ≤ 1 then []
  else if c = ['.', '.'] then []
  else '.' :: pre.reverse

/-- Node `path.posix.extname`: extension of the last component,
ignoring trailing slashes. -/
def posixExtname (p : JSStr) : JSStr :=
  extOfComponent (lastComp (stripTrailingSlashes p))

/-! ### The route's own functions -/

/-- `MIME_BY_EXT` from the route: the fixed extension-to-content-type table. -/
def MIME_BY_EXT : List (JSStr × JSStr) := [
  (".avif".toList, "image/avif".toList),
  (".css".toList, "text/css; charset=utf-8".toList),
  (".gif".toList, "image/gif".toList),
  (".html".toList, "text/html; charset=utf-8".toList),
  (".ico".toList, "image/x-icon".toList),
  (".jpeg".toList, "image/jpeg".toList),
  (".jpg".toList, "image/jpeg".toList),
  (".js".toList, "application/javascript; charset=utf-8".toList),
  (".json".toList, "application/json; charset=utf-8".toList),
  (".map".toList, "application/json; charset=utf-8".toList),
  (".mp4".toList, "video/mp4".toList),
  (".pdf".toList, "application/pdf".toList),
  (".png".toList, "image/png".toList),
  (".svg".toList, "image/svg+xml".toList),
  (".txt".toList, "text/plain; charset=utf-8".toList),
  (".webm".toList, "video/webm".toList),
  (".webp".toList, "image/webp".toList),
  (".woff".toList, "font/woff".toList),
  (".woff2".toList, "font/woff2".toList),
  (".xml".toList, "application/xml; charset=utf-8".toList)]

/-- JavaScript `String.prototype.toLowerCase`, character-wise. -/
def toLowerJS (s : JSStr) : JSStr := s.map Char.toLower

/-- `getMimeType` from the route: look up the lower-cased extension in
`MIME_BY_EXT`, defaulting to `application/octet-stream`. -/
def getMimeType (filePath : JSStr) : JSStr :=
  let ext := toLowerJS (posixExtname filePath)
  match MIME_BY_EXT.lookup ext with
  | some t => t
  | none => "application/octet-stream".toList

/-- `sanitizePath` from the route: POSIX-normalize `"/" + rawPath`,
strip the leading slashes, and reject a result that still begins with
a parent-directory segment. -/
def sanitizePath (rawPath : JSStr) : JSStr :=
  let normalized := stripLeadingSlashes (posixNormalize ('/' :: rawPath))
  if ['.', '.', '/'].isPrefixOf normalized ∨ normalized = ['.', '.'] then []
  else normalized

/-- JavaScript `Set` insertion semantics: keep the first occurrence of
each element, tracking the elements already seen. -/
def dedupAux (seen : List JSStr) : List JSStr → List JSStr
  | [] => []
  | x :: xs => if x ∈ seen then dedupAux seen xs else x :: dedupAux (x :: seen) xs

/-- JavaScript `Set` insertion order: keep the first occurrence of each
element. -/
def dedupFirst (l : List JSStr) : List JSStr := dedupAux [] l

/-- The candidate loop of `resolveSnapshotFile`: join each candidate
under the root, skip it unless the joined path still starts with the
root, and return the first candidate that exists. -/
def resolveLoop (root : JSStr) (ex : JSStr → Bool) : List JSStr → Option JSStr
  | [] => none
  | c :: cs =>
    let absolute := posixJoin2 root c
    if ! (root.isPrefixOf absolute) then resolveLoop root ex cs
    else if ex absolute then some absolute
    else resolveLoop root ex cs

/-- `resolveSnapshotFile` from the route, with the snapshot root and the
existing-file predicate (`fs.stat(..).isFile()`) abstracted. -/
def resolveSnapshotFile (root : JSStr) (ex : JSStr → Bool) (requestPath : JSStr) : Option JSStr :=
  let cleanedPath := sanitizePath requestPath
  let hasExt : Bool := decide (posixExtname cleanedPath ≠ [])
  let trimmed := stripTrailingSlashes cleanedPath
  let candidates : List JSStr :=
    if trimmed = [] then ["index.html".toList]
    else
      [trimmed] ++
        (if hasExt then []
         else [trimmed ++ ".html".toList, posixJoin2 trimmed "index.html".toList])
  resolveLoop root ex (dedupFirst candidates)

/-- The web `Response` values the route builds: a status, a header list,
and an optional body. -/
structure JSResponse where
  status : Nat
  headers : List (JSStr × JSStr)
  body : Option JSStr
deriving DecidableEq, Repr

/-- `new Response("Not Found", \x7b status: 404 \x7d)`: the fetch spec
gives a string body the content type `text/plain;charset=UTF-8`. -/
def notFoundResponse : JSResponse :=
  { status := 404
    headers := [("content-type".toList, "text/plain;charset=UTF-8".toList)]
    body := some ("Not Found".toList) }

/-- `serveFile` from the route: resolve, 404 when unresolved, otherwise
200 with the cache-control and content-type headers, and the file body
unless `headOnly`. -/
def serveFile (root : JSStr) (fs : JSStr → Option JSStr) (requestPath : JSStr)
    (headOnly : Bool) : JSResponse :=
  match resolveSnapshotFile root (fun p => (fs p).isSome) requestPath with
  | none => notFoundResponse
  | some snapshotFile =>
    let headers := [("cache-control".toList, "public, max-age=0".toList),
                    ("content-type".toList, getMimeType snapshotFile)]
    if headOnly then { status := 200, headers := headers, body := none }
    else { status := 200, headers := headers, body := fs snapshotFile }

/-- `getRequestPath` from the route: strip one leading
`/www.anthropic.com` (with an optional following slash) from the URL
pathname. -/
def getRequestPath (pathname : JSStr) : JSStr :=
  let pre := "/www.anthropic.com".toList
  if (pre ++ ['/']).isPrefixOf pathname then pathname.drop (pre.length + 1)
  else if pre.isPrefixOf pathname then pathname.drop pre.length
  else pathname

/-- The route's `GET` handler over an abstract filesystem. -/
def GET (root : JSStr) (fs : JSStr → Option JSStr) (pathname : JSStr) : JSResponse :=
  serveFile root fs (getRequestPath pathname) false

/-- The route's `HEAD` handler over an abstract filesystem. -/
def HEAD (root : JSStr) (fs : JSStr → Option JSStr) (pathname : JSStr) : JSResponse :=
  serveFile root fs (getRequestPath pathname) true

/-! ### Derived definitions used by the verification -/

/-- A plain path segment: non-empty, slash-free, and not a dot segment.
Segments produced by POSIX normalization of an absolute path are always
plain. -/
def plainSeg (s : JSStr) : Prop :=
  s ≠ [] ∧ s ≠ ['.'] ∧ s ≠ ['.', '.'] ∧ '/' ∉ s

instance (s : JSStr) : Decidable (plainSeg s) := by
  unfold plainSeg; infer_instance

/-- A plain relative path: non-empty, and every `/`-segment is plain.
Sanitized-and-trimmed request paths and all resolver candidates are
plain, which makes `posixNormalize` the identity on them. -/
def plainStr (x : JSStr) : Prop :=
  x ≠ [] ∧ ∀ s ∈ splitSep '/' x, plainSeg s

instance (x : JSStr) : Decidable (plainStr x) := by
  unfold plainStr; infer_instance

/-- The normalization stack the route computes for a raw request path:
segments of `"/" + raw` processed with `..` clamped at the root. -/
def pathStack (raw : JSStr) : List JSStr :=
  (splitSep '/' raw).foldl (normStep false) []

/-- `resolveSnapshotFile` after sanitization, as a function of the
normalization stack: `trimmed` is the joined stack and the candidate
list is built exactly as in the route. -/
def resolveCore (root : JSStr) (ex : JSStr → Bool) (st : List JSStr) : Option JSStr :=
  let trimmed := joinSep '/' st
  let hasExt : Bool := decide (posixExtname trimmed ≠ [])
  let candidates : List JSStr :=
    if trimmed = [] then ["index.html".toList]
    else
      [trimmed] ++
        (if hasExt then []
         else [trimmed ++ ".html".toList, posixJoin2 trimmed "index.html".toList])
  resolveLoop root ex (dedupFirst candidates)

/-- A normalized absolute mirror root: a leading slash followed by at
least one plain segment.  The route's `SNAPSHOT_ROOT`
(`path.join(process.cwd(), "reference", "www.anthropic.com")`) has this
form. -/
def isNormalRoot (root : JSStr) : Prop :=
  ∃ rsegs : List JSStr, rsegs ≠ [] ∧ (∀ s ∈ rsegs, plainSeg s) ∧
    root = '/' :: joinSep '/' rsegs

/-- Formalization of the claims' notion of a request path whose
parent-directory traversal would escape the mirror root: relative POSIX
normalization of the path (processed with `..` kept above the root, as
for a path interpreted relative to the root) begins with a `..`
segment. -/
def wouldEscape (p : JSStr) : Prop :=
  ((splitSep '/' p).foldl (normStep true) []).head? = some ['.', '.']

instance (p : JSStr) : Decidable (wouldEscape p) := by
  unfold wouldEscape; infer_instance

/-- The ordered fallback of claim C3 exactly as stated, applied to the
unmodified request path: (1) the path; (2) the path + ".html", only if
the path has no file extension; (3) the path + "/index.html", only if
the path has no file extension; (4) "index.html" for an empty or root
path; the first existing joined candidate is returned, null otherwise. -/
def claimedResolve (root : JSStr) (ex : JSStr → Bool) (p : JSStr) : Option JSStr :=
  let cands : List JSStr :=
    if p = [] ∨ p = ['/'] then ["index.html".toList]
    else
      [p] ++
        (if posixExtname p = [] then [p ++ ".html".toList, p ++ "/index.html".toList]
         else [])
  (cands.map (fun c => posixJoin2 root c)).find? ex

/-- The amended ordered fallback: the same candidates computed from the
sanitized request path (trailing slashes removed for the candidates,
the extension judged before trailing-slash removal, as the route
does). -/
def claimedResolveSanitized (root : JSStr) (ex : JSStr → Bool) (p : JSStr) : Option JSStr :=
  let s0 := sanitizePath p
  let s := stripTrailingSlashes s0
  let cands : List JSStr :=
    if s = [] then ["index.html".toList]
    else
      [s] ++
        (if posixExtname s0 = [] then [s ++ ".html".toList, s ++ "/index.html".toList]
         else [])
  (cands.map (fun c => posixJoin2 root c)).find? ex

/-- The file path with its extension lower-cased in place (the identity
when the path has no extension); trailing slashes, which `extname`
ignores, are preserved. -/
def lowerExtension (p : JSStr) : JSStr :=
  let core := stripTrailingSlashes p
  let e := posixExtname p
  core.take (core.length - e.length) ++ toLowerJS e ++ p.drop core.length

/-! ### Lemmas about `splitSep` and `joinSep` -/

theorem splitSep_ne_nil (sep : Char) (l : List Char) : splitSep sep l ≠ [] := by
  cases l with
  | nil => simp [splitSep]
  | cons c cs =>
    simp only [splitSep]
    split <;> simp

theorem joinSep_cons (sep : Char) (s : List Char) (ss : List (List Char)) :
    joinSep sep (s :: ss) = s ++ (if ss = [] then [] else sep :: joinSep sep ss) := by
  cases ss <;> simp [joinSep]

theorem splitSep_cons_dest (sep : Char) (cs : List Char) :
    ∃ s ss, splitSep sep cs = s :: ss := by
  cases hsp : splitSep sep cs with
  | nil => exact absurd hsp (splitSep_ne_nil sep cs)
  | cons s ss => exact ⟨s, ss, rfl⟩

theorem joinSep_splitSep (sep : Char) (l : List Char) :
    joinSep sep (splitSep sep l) = l := by
  induction l with
  | nil => simp [splitSep, joinSep]
  | cons c cs ih =>
    simp only [splitSep]
    by_cases h : c = sep
    · rw [if_pos h]
      obtain ⟨s, ss, hr⟩ := splitSep_cons_dest sep cs
      rw [hr] at ih ⊢
      rw [joinSep_cons, if_neg (by simp)]
      simp [ih, h]
    · rw [if_neg h]
      obtain ⟨s, ss, hr⟩ := splitSep_cons_dest sep cs
      rw [hr] at ih ⊢
      simp only [List.headD_cons, List.tail_cons]
      rw [joinSep_cons] at ih ⊢
      cases ss <;> simp_all

theorem splitSep_append_sep (sep : Char) (a b : List Char) :
    splitSep sep (a ++ sep :: b) = splitSep sep a ++ splitSep sep b := by
  induction a with
  | nil =>
    simp [splitSep]
  | cons c a' ih =>
    simp only [List.cons_append, splitSep, List.append_eq]
    by_cases h : c = sep
    · rw [if_pos h, if_pos h, ih]
      simp
    · rw [if_neg h, if_neg h]
      obtain ⟨s, ss, hr⟩ := splitSep_cons_dest sep a'
      rw [ih, hr]
      simp

theorem splitSep_of_not_mem {sep : Char} {a : List Char} (h : sep ∉ a) :
    splitSep sep a = [a] := by
  induction a with
  | nil => rfl
  | cons c cs ih =>
    simp only [List.mem_cons, not_or] at h
    simp only [splitSep, if_neg (Ne.symm h.1)]
    rw [ih h.2]
    rfl

theorem splitSep_joinSep {sep : Char} {parts : List (List Char)}
    (hfree : ∀ x ∈ parts, sep ∉ x) (hne : parts ≠ []) :
    splitSep sep (joinSep sep parts) = parts := by
  induction parts with
  | nil => exact absurd rfl hne
  | cons p ps ih =>
    cases ps with
    | nil =>
      simp only [joinSep]
      exact splitSep_of_not_mem (hfree p (by simp))
    | cons q qs =>
      rw [joinSep_cons, if_neg (by simp)]
      rw [splitSep_append_sep]
      rw [splitSep_of_not_mem (hfree p (by simp))]
      rw [ih (fun x hx => hfree x (by simp [hx])) (by simp)]
      rfl

theorem sep_not_mem_splitSep (sep : Char) (l : List Char) :
    ∀ x ∈ splitSep sep l, sep ∉ x := by
  induction l with
  | nil =>
    intro x hx
    simp [splitSep] at hx
    simp [hx]
  | cons c cs ih =>
    intro x hx
    simp only [splitSep] at hx
    by_cases h : c = sep
    · rw [if_pos h] at hx
      rcases List.mem_cons.mp hx with h1 | h1
      · simp [h1]
      · exact ih x h1
    · rw [if_neg h] at hx
      obtain ⟨s, ss, hr⟩ := splitSep_cons_dest sep cs
      rw [hr] at hx
      simp only [List.headD_cons, List.tail_cons] at hx
      rcases List.mem_cons.mp hx with h1 | h1
      · subst h1
        intro hmem
        rcases List.mem_cons.mp hmem with h2 | h2
        · exact h h2.symm
        · exact ih s (by rw [hr]; exact List.mem_cons_self _ _) h2
      · exact ih x (by rw [hr]; exact List.mem_cons_of_mem _ h1)

theorem splitSep_append_single (sep : Char) (l : List Char) :
    splitSep sep (l ++ [sep]) = splitSep sep l ++ [[]] := by
  have := splitSep_append_sep sep l []
  simpa [splitSep] using this

theorem joinSep_append (sep : Char) {p1 p2 : List (List Char)}
    (h1 : p1 ≠ []) (h2 : p2 ≠ []) :
    joinSep sep (p1 ++ p2) = joinSep sep p1 ++ sep :: joinSep sep p2 := by
  induction p1 with
  | nil => exact absurd rfl h1
  | cons x xs ih =>
    cases xs with
    | nil =>
      rw [List.singleton_append, joinSep_cons, if_neg h2]
      simp [joinSep]
    | cons y ys =>
      rw [List.cons_append, joinSep_cons, if_neg (by simp), joinSep_cons,
        if_neg (by simp), ih (by simp)]
      simp

theorem joinSep_concat_append (sep : Char) (ps : List (List Char)) (q m : List Char) :
    joinSep sep (ps ++ [q]) ++ m = joinSep sep (ps ++ [q ++ m]) := by
  induction ps with
  | nil => simp [joinSep]
  | cons p ps' ih =>
    rw [List.cons_append, joinSep_cons, if_neg (by simp), List.cons_append,
      joinSep_cons, if_neg (by simp)]
    simp only [List.append_assoc, List.cons_append]
    rw [ih]

/-! ### Plain segments and the normalization stack -/

theorem normStep_plain {s : JSStr} (allow : Bool) (stack : List JSStr)
    (h : plainSeg s) : normStep allow stack s = stack ++ [s] := by
  obtain ⟨h1, h2, h3, _⟩ := h
  simp [normStep, h1, h2, h3]

theorem foldl_normStep_plain (allow : Bool) :
    ∀ (segs : List JSStr) (acc : List JSStr), (∀ s ∈ segs, plainSeg s) →
      segs.foldl (normStep allow) acc = acc ++ segs := by
  intro segs
  induction segs with
  | nil => intro acc _; simp
  | cons s segs ih =>
    intro acc h
    rw [List.foldl_cons, normStep_plain allow acc (h s (by simp)),
      ih (acc ++ [s]) (fun t ht => h t (by simp [ht]))]
    simp

theorem foldl_normStep_false_plain :
    ∀ (segs : List JSStr) (acc : List JSStr),
      (∀ s ∈ segs, '/' ∉ s) → (∀ x ∈ acc, plainSeg x) →
      ∀ x ∈ segs.foldl (normStep false) acc, plainSeg x := by
  intro segs
  induction segs with
  | nil => intro acc _ hacc x hx; exact hacc x hx
  | cons s segs ih =>
    intro acc hfree hacc x hx
    refine ih (normStep false acc s) (fun t ht => hfree t (by simp [ht])) ?_ x hx
    intro y hy
    by_cases h1 : s = []
    · rw [h1] at hy; simp [normStep] at hy; exact hacc y hy
    · by_cases h2 : s = ['.']
      · simp only [normStep, if_neg h1, if_pos h2] at hy; exact hacc y hy
      · by_cases h3 : s = ['.', '.']
        · simp only [normStep, if_neg h1, if_neg h2, if_pos h3] at hy
          by_cases h4 : acc ≠ [] ∧ acc.getLast? ≠ some ['.', '.']
          · rw [if_pos h4] at hy
            exact hacc y (List.dropLast_subset acc hy)
          · rw [if_neg h4] at hy
            simp only [Bool.false_eq_true, if_false] at hy
            exact hacc y hy
        · simp only [normStep, if_neg h1, if_neg h2, if_neg h3] at hy
          rcases List.mem_append.mp hy with h5 | h5
          · exact hacc y h5
          · have h6 : y = s := List.mem_singleton.mp h5
            subst h6
            exact ⟨h1, h2, h3, hfree _ (by simp)⟩

theorem pathStack_plain (raw : JSStr) : ∀ x ∈ pathStack raw, plainSeg x :=
  foldl_normStep_false_plain (splitSep '/' raw) []
    (sep_not_mem_splitSep '/' raw) (by simp)

/-! ### Heads and tails of joined segment lists -/

theorem joinSep_ne_nil {sep : Char} {parts : List (List Char)}
    (hne : parts ≠ []) (h : ∀ x ∈ parts, x ≠ []) : joinSep sep parts ≠ [] := by
  cases parts with
  | nil => exact absurd rfl hne
  | cons s ss =>
    rw [joinSep_cons]
    cases ss with
    | nil => simpa using h s (by simp)
    | cons t ts =>
      simp only [if_neg (by simp : ¬(t :: ts = []))]
      intro hc
      rcases List.append_eq_nil.mp hc with ⟨_, h2⟩
      exact absurd h2 (by simp)

theorem joinSep_head? {sep : Char} {parts : List (List Char)}
    (hne : parts ≠ []) (h : ∀ x ∈ parts, x ≠ []) :
    (joinSep sep parts).head? = (parts.headD []).head? := by
  cases parts with
  | nil => exact absurd rfl hne
  | cons s ss =>
    rw [joinSep_cons]
    cases ss with
    | nil => simp
    | cons t ts =>
      simp only [if_neg (by simp : ¬(t :: ts = []))]
      rw [List.head?_append]
      obtain ⟨c, cs, rfl⟩ : ∃ c cs, s = c :: cs := by
        cases hs : s with
        | nil => exact absurd hs (h s (by simp))
        | cons c cs => exact ⟨c, cs, rfl⟩
      simp

theorem joinSep_getLast? {sep : Char} {parts : List (List Char)}
    (hne : parts ≠ []) (h : ∀ x ∈ parts, x ≠ []) :
    (joinSep sep parts).getLast? = (parts.getLastD []).getLast? := by
  induction parts with
  | nil => exact absurd rfl hne
  | cons s ss ih =>
    cases ss with
    | nil => simp [joinSep]
    | cons t ts =>
      rw [joinSep_cons, if_neg (by simp : ¬(t :: ts = []))]
      have hjoin : joinSep sep (t :: ts) ≠ [] :=
        joinSep_ne_nil (by simp) (fun x hx => h x (by simp [hx]))
      have hrec := ih (by simp) (fun x hx => h x (by simp [hx]))
      obtain ⟨d, hd⟩ : ∃ d, (joinSep sep (t :: ts)).getLast? = some d := by
        cases hg : (joinSep sep (t :: ts)).getLast? with
        | none => exact absurd (List.getLast?_eq_none_iff.mp hg) hjoin
        | some d => exact ⟨d, rfl⟩
      rw [List.getLast?_append, List.getLast?_cons, hd]
      rw [hd] at hrec
      simp only [Option.getD_some, Option.or_some]
      rw [hrec]
      simp [List.getLastD_cons]

/-! ### Plain relative paths -/

theorem plainStr_head?_ne_slash {x : JSStr} (h : plainStr x) :
    x.head? ≠ some '/' := by
  obtain ⟨hne, hplain⟩ := h
  have hnonempty : ∀ y ∈ splitSep '/' x, y ≠ [] := fun y hy => (hplain y hy).1
  have key : x.head? = ((splitSep '/' x).headD []).head? := by
    conv_lhs => rw [← joinSep_splitSep '/' x]
    exact joinSep_head? (splitSep_ne_nil '/' x) hnonempty
  obtain ⟨s, ss, hr⟩ := splitSep_cons_dest '/' x
  rw [hr] at key
  simp only [List.headD_cons] at key
  have hs := hplain s (by rw [hr]; simp)
  obtain ⟨c, cs, rfl⟩ : ∃ c cs, s = c :: cs := by
    cases hsc : s with
    | nil => exact absurd hsc hs.1
    | cons c cs => exact ⟨c, cs, rfl⟩
  rw [key]
  simp only [List.head?_cons, ne_eq, Option.some.injEq]
  intro hc
  exact hs.2.2.2 (by rw [hc]; simp)

theorem plainStr_getLast?_ne_slash {x : JSStr} (h : plainStr x) :
    x.getLast? ≠ some '/' := by
  obtain ⟨hne, hplain⟩ := h
  have hnonempty : ∀ y ∈ splitSep '/' x, y ≠ [] := fun y hy => (hplain y hy).1
  have key : x.getLast? = ((splitSep '/' x).getLastD []).getLast? := by
    conv_lhs => rw [← joinSep_splitSep '/' x]
    exact joinSep_getLast? (splitSep_ne_nil '/' x) hnonempty
  obtain ⟨ps, q, hr⟩ : ∃ ps q, splitSep '/' x = ps ++ [q] := by
    rcases List.eq_nil_or_concat (splitSep '/' x) with h1 | ⟨ps, q, h1⟩
    · exact absurd h1 (splitSep_ne_nil '/' x)
    · exact ⟨ps, q, by simpa [List.concat_eq_append] using h1⟩
  rw [hr] at key
  rw [List.getLastD_concat] at key
  have hq := hplain q (by rw [hr]; simp)
  obtain ⟨ds, d, hq2⟩ : ∃ ds d, q = ds ++ [d] := by
    rcases List.eq_nil_or_concat q with h1 | ⟨ds, d, h1⟩
    · exact absurd h1 hq.1
    · exact ⟨ds, d, by simpa [List.concat_eq_append] using h1⟩
  rw [key, hq2, List.getLast?_concat]
  simp only [ne_eq, Option.some.injEq]
  intro hc
  exact hq.2.2.2 (by rw [hq2, hc]; simp)

/-! ### Stripping helper lemmas -/

theorem stripTrailing_nil : stripTrailingSlashes [] = [] := rfl

theorem stripTrailing_append_slash (x : JSStr) :
    stripTrailingSlashes (x ++ ['/']) = stripTrailingSlashes x := by
  simp [stripTrailingSlashes, List.reverse_append, List.dropWhile_cons]

theorem stripTrailing_eq_self {x : JSStr} (h : x.getLast? ≠ some '/') :
    stripTrailingSlashes x = x := by
  unfold stripTrailingSlashes
  cases hr : x.reverse with
  | nil =>
    have : x = [] := by simpa using congrArg List.reverse hr
    simp [this]
  | cons c cs =>
    have hc : c ≠ '/' := by
      have hh : x.reverse.head? = some c := by rw [hr]; rfl
      rw [List.head?_reverse] at hh
      intro hcc
      rw [hcc] at hh
      exact h hh
    rw [List.dropWhile_cons, if_neg (by simp [hc])]
    rw [← hr, List.reverse_reverse]

theorem stripLeading_eq_self {x : JSStr} (h : x.head? ≠ some '/') :
    stripLeadingSlashes x = x := by
  unfold stripLeadingSlashes
  cases x with
  | nil => rfl
  | cons c cs =>
    have hc : c ≠ '/' := by
      intro hcc
      rw [hcc] at h
      exact h rfl
    rw [List.dropWhile_cons, if_neg (by simp [hc])]

theorem stripLeading_cons_slash (x : JSStr) :
    stripLeadingSlashes ('/' :: x) = stripLeadingSlashes x := by
  simp [stripLeadingSlashes, List.dropWhile_cons]

/-! ### Shape of `posixNormalize` on absolute inputs, and the sanitize master lemma -/

theorem posixNormalize_abs {p : JSStr} (hp : p.head? = some '/') :
    posixNormalize p =
      (if joinSep '/' ((splitSep '/' p).foldl (normStep false) []) = [] then ['/']
       else '/' :: joinSep '/' ((splitSep '/' p).foldl (normStep false) []) ++
         (if p.getLast? = some '/' then ['/'] else [])) := by
  have hne : p ≠ [] := by
    intro h
    rw [h] at hp
    simp at hp
  simp only [posixNormalize, if_neg hne, hp, decide_True, Bool.not_true, if_true,
    Option.some.injEq, decide_eq_true_eq]
  split
  · simp
  · split <;> simp

theorem guard_not_fired {stack : List JSStr} (hst : stack ≠ [])
    (hplain : ∀ x ∈ stack, plainSeg x) {tr : JSStr} (htr : tr = [] ∨ tr = ['/']) :
    ¬(['.', '.', '/'].isPrefixOf (joinSep '/' stack ++ tr) ∨
      joinSep '/' stack ++ tr = ['.', '.']) := by
  have hfree : ∀ x ∈ stack, '/' ∉ x := fun x hx => (hplain x hx).2.2.2
  have hsplit : splitSep '/' (joinSep '/' stack ++ tr) = stack ∨
      splitSep '/' (joinSep '/' stack ++ tr) = stack ++ [[]] := by
    rcases htr with rfl | rfl
    · left
      rw [List.append_nil]
      exact splitSep_joinSep hfree hst
    · right
      rw [splitSep_append_single, splitSep_joinSep hfree hst]
  obtain ⟨s, ss, hstack⟩ : ∃ s ss, stack = s :: ss := by
    cases stack with
    | nil => exact absurd rfl hst
    | cons s ss => exact ⟨s, ss, rfl⟩
  have hhead : (splitSep '/' (joinSep '/' stack ++ tr)).head? = some s := by
    rcases hsplit with hs | hs <;> rw [hs, hstack] <;> simp
  have hs_ne : s ≠ ['.', '.'] := (hplain s (by rw [hstack]; simp)).2.2.1
  intro hcontra
  rcases hcontra with hpre | heq
  · obtain ⟨u, hu⟩ : ∃ u, joinSep '/' stack ++ tr = '.' :: '.' :: '/' :: u := by
      obtain ⟨u, hu⟩ := List.isPrefixOf_iff_prefix.mp hpre
      exact ⟨u, hu.symm⟩
    rw [hu] at hhead
    have hsp : splitSep '/' ('.' :: '.' :: '/' :: u) = ['.', '.'] :: splitSep '/' u := by
      have h2 := splitSep_append_sep '/' ['.', '.'] u
      rw [splitSep_of_not_mem (by decide : '/' ∉ ['.', '.'])] at h2
      exact h2
    rw [hsp] at hhead
    simp only [List.head?_cons, Option.some.injEq] at hhead
    exact hs_ne hhead.symm
  · rw [heq] at hhead
    have hsp : splitSep '/' ['.', '.'] = [['.', '.']] := by decide
    rw [hsp] at hhead
    simp only [List.head?_cons, Option.some.injEq] at hhead
    exact hs_ne hhead.symm

theorem pathStack_nil : pathStack [] = [] := rfl

theorem sanitizePath_eq (raw : JSStr) :
    sanitizePath raw =
      (if pathStack raw = [] then []
       else joinSep '/' (pathStack raw) ++
         (if raw.getLast? = some '/' then ['/'] else [])) := by
  have hsplit : splitSep '/' ('/' :: raw) = [] :: splitSep '/' raw := by
    simp [splitSep]
  have hstack : (splitSep '/' ('/' :: raw)).foldl (normStep false) [] = pathStack raw := by
    rw [hsplit]
    rfl
  have hnorm := posixNormalize_abs (p := '/' :: raw) (by simp)
  rw [hstack] at hnorm
  by_cases hst : pathStack raw = []
  · rw [if_pos hst]
    rw [hst] at hnorm
    have hj : joinSep '/' ([] : List JSStr) = [] := rfl
    rw [hj, if_pos rfl] at hnorm
    unfold sanitizePath
    rw [hnorm]
    decide
  · rw [if_neg hst]
    have hplain := pathStack_plain raw
    have hnonempty : ∀ y ∈ pathStack raw, y ≠ [] := fun y hy => (hplain y hy).1
    have hbody : joinSep '/' (pathStack raw) ≠ [] := joinSep_ne_nil hst hnonempty
    rw [if_neg hbody] at hnorm
    have hlast : ('/' :: raw).getLast? = raw.getLast? := by
      have hraw : raw ≠ [] := by
        intro h
        rw [h] at hst
        exact hst pathStack_nil
      show (['/'] ++ raw).getLast? = raw.getLast?
      rw [List.getLast?_append]
      obtain ⟨ds, d, h1⟩ : ∃ ds d, raw = ds ++ [d] := by
        rcases List.eq_nil_or_concat raw with h1 | ⟨ds, d, h1⟩
        · exact absurd h1 hraw
        · exact ⟨ds, d, by simpa [List.concat_eq_append] using h1⟩
      rw [h1, List.getLast?_concat]
      rfl
    rw [hlast] at hnorm
    unfold sanitizePath
    rw [hnorm]
    have hplainstr : plainStr (joinSep '/' (pathStack raw)) := by
      refine ⟨hbody, ?_⟩
      rw [splitSep_joinSep (fun x hx => (hplain x hx).2.2.2) hst]
      exact hplain
    have hheadbody : (joinSep '/' (pathStack raw)).head? ≠ some '/' :=
      plainStr_head?_ne_slash hplainstr
    have hstrip : stripLeadingSlashes
        ('/' :: joinSep '/' (pathStack raw) ++
          (if raw.getLast? = some '/' then ['/'] else [])) =
        joinSep '/' (pathStack raw) ++
          (if raw.getLast? = some '/' then ['/'] else []) := by
      rw [show ('/' :: joinSep '/' (pathStack raw) ++
            (if raw.getLast? = some '/' then ['/'] else [])) =
          '/' :: (joinSep '/' (pathStack raw) ++
            (if raw.getLast? = some '/' then ['/'] else [])) from rfl]
      rw [stripLeading_cons_slash]
      apply stripLeading_eq_self
      rw [List.head?_append]
      obtain ⟨c, cs, hj⟩ : ∃ c cs, joinSep '/' (pathStack raw) = c :: cs := by
        cases hc : joinSep '/' (pathStack raw) with
        | nil => exact absurd hc hbody
        | cons c cs => exact ⟨c, cs, rfl⟩
      rw [hj]
      rw [hj] at hheadbody
      simpa using hheadbody
    rw [hstrip]
    rw [if_neg (guard_not_fired hst hplain (by split <;> simp))]

/-! ### The resolver depends only on the normalization stack -/

theorem resolveSnapshotFile_eq_core (root : JSStr) (ex : JSStr → Bool) (raw : JSStr) :
    resolveSnapshotFile root ex raw = resolveCore root ex (pathStack raw) := by
  simp only [resolveSnapshotFile, resolveCore]
  rw [sanitizePath_eq raw]
  by_cases hst : pathStack raw = []
  · rw [if_pos hst, hst]
    rfl
  · rw [if_neg hst]
    have hplain := pathStack_plain raw
    have hnonempty : ∀ y ∈ pathStack raw, y ≠ [] := fun y hy => (hplain y hy).1
    have hbody : joinSep '/' (pathStack raw) ≠ [] := joinSep_ne_nil hst hnonempty
    have hplainstr : plainStr (joinSep '/' (pathStack raw)) := by
      refine ⟨hbody, ?_⟩
      rw [splitSep_joinSep (fun x hx => (hplain x hx).2.2.2) hst]
      exact hplain
    have hlastne := plainStr_getLast?_ne_slash hplainstr
    have htrim : stripTrailingSlashes (joinSep '/' (pathStack raw) ++
        (if raw.getLast? = some '/' then ['/'] else [])) = joinSep '/' (pathStack raw) := by
      split
      · rw [stripTrailing_append_slash]
        exact stripTrailing_eq_self hlastne
      · rw [List.append_nil]
        exact stripTrailing_eq_self hlastne
    have hext : posixExtname (joinSep '/' (pathStack raw) ++
        (if raw.getLast? = some '/' then ['/'] else [])) =
        posixExtname (joinSep '/' (pathStack raw)) := by
      unfold posixExtname
      rw [htrim, stripTrailing_eq_self hlastne]
    rw [htrim, hext]

/-! ### Stack computations used by the trailing-slash and traversal claims -/

theorem pathStack_append_slash (p : JSStr) : pathStack (p ++ ['/']) = pathStack p := by
  unfold pathStack
  rw [splitSep_append_single, List.foldl_append]
  rfl

theorem pathStack_of_plain_join {st : List JSStr} (hplain : ∀ x ∈ st, plainSeg x)
    (hst : st ≠ []) {tr : JSStr} (htr : tr = [] ∨ tr = ['/']) :
    pathStack (joinSep '/' st ++ tr) = st := by
  have hfree : ∀ x ∈ st, '/' ∉ x := fun x hx => (hplain x hx).2.2.2
  rcases htr with rfl | rfl
  · unfold pathStack
    rw [List.append_nil, splitSep_joinSep hfree hst]
    exact foldl_normStep_plain false st [] hplain
  · unfold pathStack
    rw [splitSep_append_single, splitSep_joinSep hfree hst, List.foldl_append]
    rw [foldl_normStep_plain false st [] hplain]
    rfl

theorem foldl_normStep_dotdot (k : Nat) :
    List.foldl (normStep false) [] (List.replicate k ['.', '.']) = [] := by
  induction k with
  | zero => rfl
  | succ n ih =>
    rw [List.replicate_succ, List.foldl_cons]
    have : normStep false [] ['.', '.'] = [] := by decide
    rw [this, ih]

theorem pathStack_dotdot (k : Nat) :
    pathStack (joinSep '/' (List.replicate k ['.', '.'])) = [] := by
  cases k with
  | zero => rfl
  | succ n =>
    unfold pathStack
    rw [splitSep_joinSep (by intro x hx; rw [List.eq_of_mem_replicate hx]; decide)
      (by simp)]
    exact foldl_normStep_dotdot (n + 1)

theorem stripLead_normalize_eq (raw : JSStr) :
    stripLeadingSlashes (posixNormalize ('/' :: raw)) =
      (if pathStack raw = [] then []
       else joinSep '/' (pathStack raw) ++
         (if raw.getLast? = some '/' then ['/'] else [])) := by
  have hsplit : splitSep '/' ('/' :: raw) = [] :: splitSep '/' raw := by
    simp [splitSep]
  have hstack : (splitSep '/' ('/' :: raw)).foldl (normStep false) [] = pathStack raw := by
    rw [hsplit]
    rfl
  have hnorm := posixNormalize_abs (p := '/' :: raw) (by simp)
  rw [hstack] at hnorm
  by_cases hst : pathStack raw = []
  · rw [if_pos hst]
    rw [hst] at hnorm
    have hj : joinSep '/' ([] : List JSStr) = [] := rfl
    rw [hj, if_pos rfl] at hnorm
    rw [hnorm]
    rfl
  · rw [if_neg hst]
    have hplain := pathStack_plain raw
    have hnonempty : ∀ y ∈ pathStack raw, y ≠ [] := fun y hy => (hplain y hy).1
    have hbody : joinSep '/' (pathStack raw) ≠ [] := joinSep_ne_nil hst hnonempty
    rw [if_neg hbody] at hnorm
    have hlast : ('/' :: raw).getLast? = raw.getLast? := by
      have hraw : raw ≠ [] := by
        intro h
        rw [h] at hst
        exact hst pathStack_nil
      show (['/'] ++ raw).getLast? = raw.getLast?
      rw [List.getLast?_append]
      obtain ⟨ds, d, h1⟩ : ∃ ds d, raw = ds ++ [d] := by
        rcases List.eq_nil_or_concat raw with h1 | ⟨ds, d, h1⟩
        · exact absurd h1 hraw
        · exact ⟨ds, d, by simpa [List.concat_eq_append] using h1⟩
      rw [h1, List.getLast?_concat]
      rfl
    rw [hlast] at hnorm
    rw [hnorm]
    have hplainstr : plainStr (joinSep '/' (pathStack raw)) := by
      refine ⟨hbody, ?_⟩
      rw [splitSep_joinSep (fun x hx => (hplain x hx).2.2.2) hst]
      exact hplain
    have hheadbody := plainStr_head?_ne_slash hplainstr
    rw [show ('/' :: joinSep '/' (pathStack raw) ++
          (if raw.getLast? = some '/' then ['/'] else [])) =
        '/' :: (joinSep '/' (pathStack raw) ++
          (if raw.getLast? = some '/' then ['/'] else [])) from rfl]
    rw [stripLeading_cons_slash]
    apply stripLeading_eq_self
    rw [List.head?_append]
    obtain ⟨c, cs, hj⟩ : ∃ c cs, joinSep '/' (pathStack raw) = c :: cs := by
      cases hc : joinSep '/' (pathStack raw) with
      | nil => exact absurd hc hbody
      | cons c cs => exact ⟨c, cs, rfl⟩
    rw [hj]
    rw [hj] at hheadbody
    simpa using hheadbody

/-! ### Safety of the candidate loop -/

theorem resolveLoop_some {root : JSStr} {ex : JSStr → Bool} :
    ∀ {l : List JSStr} {s : JSStr}, resolveLoop root ex l = some s →
      root.isPrefixOf s = true ∧ ∃ c ∈ l, s = posixJoin2 root c ∧ ex s = true := by
  intro l
  induction l with
  | nil => intro s h; simp [resolveLoop] at h
  | cons c cs ih =>
    intro s h
    simp only [resolveLoop] at h
    cases hb : root.isPrefixOf (posixJoin2 root c) with
    | false =>
      rw [hb] at h
      simp only [Bool.not_false, if_true] at h
      obtain ⟨h1, c', hmem, h2⟩ := ih h
      exact ⟨h1, c', by simp [hmem], h2⟩
    | true =>
      rw [hb] at h
      simp only [Bool.not_true, Bool.false_eq_true, if_false] at h
      cases he : ex (posixJoin2 root c) with
      | false =>
        rw [he] at h
        simp only [Bool.false_eq_true, if_false] at h
        obtain ⟨h1, c', hmem, h2⟩ := ih h
        exact ⟨h1, c', by simp [hmem], h2⟩
      | true =>
        rw [he] at h
        simp only [if_true] at h
        obtain rfl : posixJoin2 root c = s := by
          simpa using h
        exact ⟨hb, c, by simp, rfl, he⟩

theorem posixNormalize_abs_parts {p : JSStr} (hp : p.head? = some '/') :
    (posixNormalize p).head? = some '/' ∧
      ∀ x ∈ splitSep '/' (posixNormalize p), x ≠ ['.', '.'] := by
  rw [posixNormalize_abs hp]
  set st := (splitSep '/' p).foldl (normStep false) [] with hst_def
  have hplain : ∀ x ∈ st, plainSeg x :=
    foldl_normStep_false_plain (splitSep '/' p) [] (sep_not_mem_splitSep '/' p) (by simp)
  by_cases hb : joinSep '/' st = []
  · rw [if_pos hb]
    constructor
    · rfl
    · decide
  · rw [if_neg hb]
    have hst : st ≠ [] := by
      intro h
      rw [h] at hb
      exact hb rfl
    have hfree : ∀ x ∈ st, '/' ∉ x := fun x hx => (hplain x hx).2.2.2
    constructor
    · simp
    · intro x hx
      have hsplit : splitSep '/' ('/' :: joinSep '/' st ++
          (if p.getLast? = some '/' then ['/'] else [])) =
          [] :: (st ++ (if p.getLast? = some '/' then [[]] else [])) := by
        rw [show ('/' :: joinSep '/' st ++
              (if p.getLast? = some '/' then ['/'] else [])) =
            '/' :: (joinSep '/' st ++
              (if p.getLast? = some '/' then ['/'] else [])) from rfl]
        rw [show splitSep '/' ('/' :: (joinSep '/' st ++
              (if p.getLast? = some '/' then ['/'] else []))) =
            [] :: splitSep '/' (joinSep '/' st ++
              (if p.getLast? = some '/' then ['/'] else [])) by simp [splitSep]]
        congr 1
        split
        · rw [splitSep_append_single, splitSep_joinSep hfree hst]
        · rw [List.append_nil, splitSep_joinSep hfree hst]
          simp
      rw [hsplit] at hx
      rcases List.mem_cons.mp hx with h1 | h1
      · rw [h1]; decide
      · rcases List.mem_append.mp h1 with h2 | h2
        · exact (hplain x h2).2.2.1
        · split at h2
          · rw [List.mem_singleton.mp h2]; decide
          · simp at h2

theorem posixJoin2_abs_parts {root : JSStr} (c : JSStr) (hr : root.head? = some '/') :
    (posixJoin2 root c).head? = some '/' ∧
      ∀ x ∈ splitSep '/' (posixJoin2 root c), x ≠ ['.', '.'] := by
  have hroot_ne : root ≠ [] := by
    intro h
    rw [h] at hr
    simp at hr
  unfold posixJoin2
  by_cases hc : c = []
  · subst hc
    rw [show ([root, []].filter (fun s => s ≠ [])) = [root] by simp [hroot_ne]]
    rw [if_neg (by simp)]
    exact posixNormalize_abs_parts (p := joinSep '/' [root]) (by simpa [joinSep] using hr)
  · rw [show ([root, c].filter (fun s => s ≠ [])) = [root, c] by simp [hroot_ne, hc]]
    rw [if_neg (by simp)]
    refine posixNormalize_abs_parts (p := joinSep '/' [root, c]) ?_
    rw [show joinSep '/' [root, c] = root ++ '/' :: c by simp [joinSep]]
    rw [List.head?_append, hr]
    rfl

/-! ### Normal roots and identity of normalization on plain paths -/

theorem posixNormalize_plain {x : JSStr} (h : plainStr x) : posixNormalize x = x := by
  obtain ⟨hne, hplain⟩ := h
  have hhead := plainStr_head?_ne_slash ⟨hne, hplain⟩
  have hlast := plainStr_getLast?_ne_slash ⟨hne, hplain⟩
  simp only [posixNormalize, if_neg hne, decide_eq_false hhead, decide_eq_false hlast,
    Bool.not_false]
  rw [foldl_normStep_plain true (splitSep '/' x) [] hplain]
  simp only [List.nil_append]
  rw [joinSep_splitSep]
  rw [if_neg hne]
  simp

theorem posixJoin2_plain {a b : JSStr} (ha : plainStr a) (hb : plainStr b) :
    posixJoin2 a b = a ++ '/' :: b := by
  unfold posixJoin2
  rw [show ([a, b].filter (fun s => s ≠ [])) = [a, b] by simp [ha.1, hb.1]]
  rw [if_neg (by simp)]
  rw [show joinSep '/' [a, b] = a ++ '/' :: b by simp [joinSep]]
  apply posixNormalize_plain
  constructor
  · simp
  · rw [splitSep_append_sep]
    intro s hs
    rcases List.mem_append.mp hs with h | h
    · exact ha.2 s h
    · exact hb.2 s h

theorem plainStr_append_sep {x y : JSStr} (hx : plainStr x) (hy : plainStr y) :
    plainStr (x ++ '/' :: y) := by
  constructor
  · simp
  · rw [splitSep_append_sep]
    intro s hs
    rcases List.mem_append.mp hs with h | h
    · exact hx.2 s h
    · exact hy.2 s h

theorem posixJoin2_normalRoot {root c : JSStr} (hroot : isNormalRoot root)
    (hc : plainStr c) : posixJoin2 root c = root ++ '/' :: c := by
  obtain ⟨rsegs, hne, hplain, hr⟩ := hroot
  have hrfree : ∀ s ∈ rsegs, '/' ∉ s := fun s hs => (hplain s hs).2.2.2
  have hrootne : root ≠ [] := by rw [hr]; simp
  have hcne : c ≠ [] := hc.1
  unfold posixJoin2
  rw [show ([root, c].filter (fun s => s ≠ [])) = [root, c] by simp [hrootne, hcne]]
  rw [if_neg (by simp)]
  rw [show joinSep '/' [root, c] = root ++ '/' :: c by simp [joinSep]]
  have hhead : (root ++ '/' :: c).head? = some '/' := by rw [hr]; rfl
  rw [posixNormalize_abs hhead]
  have hsplit : splitSep '/' (root ++ '/' :: c) = [] :: (rsegs ++ splitSep '/' c) := by
    rw [hr]
    rw [show (('/' :: joinSep '/' rsegs) ++ '/' :: c) =
        '/' :: (joinSep '/' rsegs ++ '/' :: c) from rfl]
    rw [show splitSep '/' ('/' :: (joinSep '/' rsegs ++ '/' :: c)) =
        [] :: splitSep '/' (joinSep '/' rsegs ++ '/' :: c) by simp [splitSep]]
    rw [splitSep_append_sep, splitSep_joinSep hrfree hne]
  have hplain2 : ∀ x ∈ rsegs ++ splitSep '/' c, plainSeg x := by
    intro x hx
    rcases List.mem_append.mp hx with h1 | h1
    · exact hplain x h1
    · exact hc.2 x h1
  have hstack : (splitSep '/' (root ++ '/' :: c)).foldl (normStep false) [] =
      rsegs ++ splitSep '/' c := by
    rw [hsplit, List.foldl_cons]
    rw [show normStep false [] [] = [] from rfl]
    rw [foldl_normStep_plain false _ [] hplain2]
    simp
  rw [hstack]
  have hbody : joinSep '/' (rsegs ++ splitSep '/' c) = joinSep '/' rsegs ++ '/' :: c := by
    rw [joinSep_append '/' hne (splitSep_ne_nil '/' c), joinSep_splitSep]
  rw [hbody]
  rw [if_neg (by simp : ¬(joinSep '/' rsegs ++ '/' :: c) = [])]
  have hlast : (root ++ '/' :: c).getLast? = c.getLast? := by
    obtain ⟨ds, d, h1⟩ : ∃ ds d, c = ds ++ [d] := by
      rcases List.eq_nil_or_concat c with h1 | ⟨ds, d, h1⟩
      · exact absurd h1 hcne
      · exact ⟨ds, d, by simpa [List.concat_eq_append] using h1⟩
    rw [h1]
    rw [show root ++ '/' :: (ds ++ [d]) = (root ++ '/' :: ds) ++ [d] by simp]
    rw [List.getLast?_concat, List.getLast?_concat]
  rw [hlast]
  rw [if_neg (plainStr_getLast?_ne_slash hc)]
  rw [hr]
  simp

theorem resolveLoop_plain {root : JSStr} (hroot : isNormalRoot root) (ex : JSStr → Bool) :
    ∀ {l : List JSStr}, (∀ c ∈ l, plainStr c) →
      resolveLoop root ex l = (l.map (fun c => root ++ '/' :: c)).find? ex := by
  intro l
  induction l with
  | nil => intro _; rfl
  | cons c cs ih =>
    intro h
    simp only [resolveLoop, List.map_cons]
    rw [posixJoin2_normalRoot hroot (h c (by simp))]
    have hpre : root.isPrefixOf (root ++ '/' :: c) = true := by
      rw [List.isPrefixOf_iff_prefix]
      exact ⟨'/' :: c, rfl⟩
    rw [hpre]
    simp only [Bool.not_true, Bool.false_eq_true, if_false]
    cases he : ex (root ++ '/' :: c) with
    | true =>
      rw [if_pos rfl, List.find?_cons_of_pos _ he]
    | false =>
      rw [if_neg (by simp), List.find?_cons_of_neg _ (by simp [he])]
      exact ih (fun x hx => h x (by simp [hx]))

/-! ### Candidate lists are plain and duplicate-free -/

theorem plainStr_append_ext {x m : JSStr} (hx : plainStr x) (hm : '/' ∉ m)
    (hlen : 2 < m.length) : plainStr (x ++ m) := by
  obtain ⟨hne, hplain⟩ := hx
  obtain ⟨ps, q, hr⟩ : ∃ ps q, splitSep '/' x = ps ++ [q] := by
    rcases List.eq_nil_or_concat (splitSep '/' x) with h1 | ⟨ps, q, h1⟩
    · exact absurd h1 (splitSep_ne_nil '/' x)
    · exact ⟨ps, q, by simpa [List.concat_eq_append] using h1⟩
  have hx_eq : x = joinSep '/' (ps ++ [q]) := by
    rw [← hr, joinSep_splitSep]
  have hfree : ∀ s ∈ ps ++ [q], '/' ∉ s := by
    intro s hs
    exact (hplain s (by rw [hr]; exact hs)).2.2.2
  have hq : plainSeg q := hplain q (by rw [hr]; simp)
  constructor
  · simp [hne]
  · rw [hx_eq, joinSep_concat_append]
    rw [splitSep_joinSep ?_ (by simp)]
    · intro s hs
      rcases List.mem_append.mp hs with h1 | h1
      · exact hplain s (by rw [hr]; simp [h1])
      · rw [List.mem_singleton.mp h1]
        have hqne : q ≠ [] := hq.1
        have hqlen : 1 ≤ q.length := by
          cases hql : q with
          | nil => exact absurd hql hqne
          | cons _ _ => simp
        refine ⟨by simp [hqne], ?_, ?_, ?_⟩
        · intro hcontra
          have := congrArg List.length hcontra
          simp at this
          omega
        · intro hcontra
          have := congrArg List.length hcontra
          simp at this
          omega
        · intro hcontra
          rcases List.mem_append.mp hcontra with h2 | h2
          · exact hq.2.2.2 h2
          · exact hm h2
    · intro s hs
      rcases List.mem_append.mp hs with h1 | h1
      · exact hfree s (by simp [h1])
      · rw [List.mem_singleton.mp h1]
        intro hcontra
        rcases List.mem_append.mp hcontra with h2 | h2
        · exact hfree q (by simp) h2
        · exact hm h2

theorem dedupFirst_singleton (a : JSStr) : dedupFirst [a] = [a] := by
  simp [dedupFirst, dedupAux]

theorem dedupFirst_three {a b c : JSStr} (h1 : b ≠ a) (h2 : c ≠ a) (h3 : c ≠ b) :
    dedupFirst [a, b, c] = [a, b, c] := by
  simp [dedupFirst, dedupAux, h1, h2, h3]

/-! ### The resolver as an ordered fallback over the sanitized path -/

theorem resolve_sanitized_fallback {root : JSStr} (hroot : isNormalRoot root)
    (ex : JSStr → Bool) (p : JSStr) :
    resolveSnapshotFile root ex p = claimedResolveSanitized root ex p := by
  rw [resolveSnapshotFile_eq_core]
  simp only [claimedResolveSanitized]
  rw [sanitizePath_eq p]
  by_cases hst : pathStack p = []
  · rw [hst]
    rw [if_pos rfl]
    simp only [resolveCore]
    rw [show joinSep '/' ([] : List JSStr) = [] from rfl]
    rw [if_pos rfl]
    rw [dedupFirst_singleton]
    rw [resolveLoop_plain hroot ex
      (by intro c hc; rw [List.mem_singleton.mp hc]; decide)]
    rw [show stripTrailingSlashes ([] : JSStr) = [] from rfl]
    rw [if_pos rfl]
    rw [show ((["index.html".toList] : List JSStr).map fun c => posixJoin2 root c) =
        [posixJoin2 root ("index.html".toList)] from rfl]
    rw [posixJoin2_normalRoot hroot (by decide)]
    rfl
  · rw [if_neg hst]
    have hplain := pathStack_plain p
    have hnonempty : ∀ y ∈ pathStack p, y ≠ [] := fun y hy => (hplain y hy).1
    have hbody : joinSep '/' (pathStack p) ≠ [] := joinSep_ne_nil hst hnonempty
    have hplainstr : plainStr (joinSep '/' (pathStack p)) := by
      refine ⟨hbody, ?_⟩
      rw [splitSep_joinSep (fun x hx => (hplain x hx).2.2.2) hst]
      exact hplain
    have hlastne := plainStr_getLast?_ne_slash hplainstr
    have htrim : stripTrailingSlashes (joinSep '/' (pathStack p) ++
        (if p.getLast? = some '/' then ['/'] else [])) = joinSep '/' (pathStack p) := by
      split
      · rw [stripTrailing_append_slash]
        exact stripTrailing_eq_self hlastne
      · rw [List.append_nil]
        exact stripTrailing_eq_self hlastne
    have hext : posixExtname (joinSep '/' (pathStack p) ++
        (if p.getLast? = some '/' then ['/'] else [])) =
        posixExtname (joinSep '/' (pathStack p)) := by
      unfold posixExtname
      rw [htrim, stripTrailing_eq_self hlastne]
    rw [htrim, hext]
    simp only [resolveCore]
    rw [if_neg hbody, if_neg hbody]
    by_cases hex : posixExtname (joinSep '/' (pathStack p)) = []
    · rw [if_pos hex]
      rw [show decide (posixExtname (joinSep '/' (pathStack p)) ≠ []) = false by
        simp [hex]]
      simp only [Bool.false_eq_true, if_false]
      rw [posixJoin2_plain hplainstr (by decide : plainStr ("index.html".toList))]
      have hlh : (".html".toList).length = 5 := rfl
      have hli : ('/' :: "index.html".toList).length = 11 := rfl
      have h1 : joinSep '/' (pathStack p) ++ ".html".toList ≠
          joinSep '/' (pathStack p) := by
        intro h
        have h2 := congrArg List.length h
        rw [List.length_append, hlh] at h2
        omega
      have h2 : joinSep '/' (pathStack p) ++ '/' :: "index.html".toList ≠
          joinSep '/' (pathStack p) := by
        intro h
        have h3 := congrArg List.length h
        rw [List.length_append, hli] at h3
        omega
      have h3 : joinSep '/' (pathStack p) ++ '/' :: "index.html".toList ≠
          joinSep '/' (pathStack p) ++ ".html".toList := by
        intro h
        have h4 := congrArg List.length h
        rw [List.length_append, List.length_append, hlh, hli] at h4
        omega
      rw [show ([joinSep '/' (pathStack p)] ++
          [joinSep '/' (pathStack p) ++ ".html".toList,
           joinSep '/' (pathStack p) ++ '/' :: "index.html".toList]) =
          [joinSep '/' (pathStack p),
           joinSep '/' (pathStack p) ++ ".html".toList,
           joinSep '/' (pathStack p) ++ '/' :: "index.html".toList] from rfl]
      rw [dedupFirst_three h1 h2 h3]
      have hplainhtml : plainStr (joinSep '/' (pathStack p) ++ ".html".toList) :=
        plainStr_append_ext hplainstr (by decide) (by decide)
      have hplainidx : plainStr (joinSep '/' (pathStack p) ++ '/' :: "index.html".toList) :=
        plainStr_append_sep hplainstr (by decide)
      rw [resolveLoop_plain hroot ex (by
        intro c hc
        rcases List.mem_cons.mp hc with h | h
        · rw [h]; exact hplainstr
        · rcases List.mem_cons.mp h with h' | h'
          · rw [h']; exact hplainhtml
          · rw [List.mem_singleton.mp h']; exact hplainidx)]
      simp only [List.map_cons, List.map_nil, List.singleton_append, List.cons_append,
        List.nil_append]
      rw [posixJoin2_normalRoot hroot hplainstr,
        posixJoin2_normalRoot hroot hplainhtml]
      rw [show (joinSep '/' (pathStack p) ++ "/index.html".toList) =
          joinSep '/' (pathStack p) ++ '/' :: "index.html".toList from rfl]
      rw [posixJoin2_normalRoot hroot hplainidx]
    · rw [if_neg hex]
      rw [show decide (posixExtname (joinSep '/' (pathStack p)) ≠ []) = true by
        simp [hex]]
      simp only [if_true, List.append_nil]
      rw [dedupFirst_singleton]
      rw [resolveLoop_plain hroot ex (by
        intro c hc
        rw [List.mem_singleton.mp hc]
        exact hplainstr)]
      simp only [List.map_cons, List.map_nil]
      rw [posixJoin2_normalRoot hroot hplainstr]

/-! ### Lower-casing characters -/

theorem char_ofNat_shift_toNat (n : Nat) (h1 : 65 ≤ n) (h2 : n ≤ 90) :
    (Char.ofNat (n + 32)).toNat = n + 32 := by
  interval_cases n <;> decide

theorem toLower_eq_of_upper {c : Char} (h1 : 65 ≤ c.toNat) (h2 : c.toNat ≤ 90) :
    Char.toLower c = Char.ofNat (c.toNat + 32) := by
  unfold Char.toLower
  rw [if_pos ⟨h1, h2⟩]

theorem toLower_eq_self {c : Char} (h : ¬(65 ≤ c.toNat ∧ c.toNat ≤ 90)) :
    Char.toLower c = c := by
  unfold Char.toLower
  rw [if_neg h]

theorem toLower_toLower (c : Char) :
    Char.toLower (Char.toLower c) = Char.toLower c := by
  by_cases h : 65 ≤ c.toNat ∧ c.toNat ≤ 90
  · rw [toLower_eq_of_upper h.1 h.2]
    apply toLower_eq_self
    rw [char_ofNat_shift_toNat c.toNat h.1 h.2]
    omega
  · rw [toLower_eq_self h, toLower_eq_self h]

theorem toLower_ne_slash {c : Char} (h : c ≠ '/') : Char.toLower c ≠ '/' := by
  by_cases hu : 65 ≤ c.toNat ∧ c.toNat ≤ 90
  · rw [toLower_eq_of_upper hu.1 hu.2]
    intro hc
    have h2 := congrArg Char.toNat hc
    rw [char_ofNat_shift_toNat c.toNat hu.1 hu.2] at h2
    have h47 : ('/' : Char).toNat = 47 := rfl
    rw [h47] at h2
    omega
  · rw [toLower_eq_self hu]
    exact h

theorem toLower_ne_dot {c : Char} (h : c ≠ '.') : Char.toLower c ≠ '.' := by
  by_cases hu : 65 ≤ c.toNat ∧ c.toNat ≤ 90
  · rw [toLower_eq_of_upper hu.1 hu.2]
    intro hc
    have h2 := congrArg Char.toNat hc
    rw [char_ofNat_shift_toNat c.toNat hu.1 hu.2] at h2
    have h46 : ('.' : Char).toNat = 46 := rfl
    rw [h46] at h2
    omega
  · rw [toLower_eq_self hu]
    exact h

theorem toLowerJS_idem (s : JSStr) : toLowerJS (toLowerJS s) = toLowerJS s := by
  unfold toLowerJS
  rw [List.map_map]
  simp only [Function.comp_def, toLower_toLower]

/-! ### Generic takeWhile and dropWhile helpers -/

theorem dropWhile_head_false {p : Char → Bool} :
    ∀ {l : List Char} {a : Char} {l' : List Char},
      l.dropWhile p = a :: l' → p a = false := by
  intro l
  induction l with
  | nil => intro a l' h; simp [List.dropWhile] at h
  | cons c cs ih =>
    intro a l' h
    rw [List.dropWhile_cons] at h
    by_cases hc : p c = true
    · rw [if_pos hc] at h
      exact ih h
    · rw [if_neg hc] at h
      obtain ⟨rfl, _⟩ : c = a ∧ cs = l' := by
        exact ⟨(List.cons.injEq _ _ _ _ ▸ h).1, (List.cons.injEq _ _ _ _ ▸ h).2⟩
      simpa using hc

theorem takeWhile_append_all {p : Char → Bool} {a b : List Char}
    (h : ∀ x ∈ a, p x = true) : (a ++ b).takeWhile p = a ++ b.takeWhile p := by
  induction a with
  | nil => simp
  | cons c cs ih =>
    rw [List.cons_append, List.takeWhile_cons, if_pos (h c (by simp))]
    rw [ih (fun x hx => h x (by simp [hx]))]
    rfl

theorem takeWhile_cons_false {p : Char → Bool} {c : Char} (l : List Char)
    (h : p c = false) : (c :: l).takeWhile p = [] := by
  rw [List.takeWhile_cons, if_neg (by simp [h])]

theorem stripTrailing_decomp (p : JSStr) :
    p = stripTrailingSlashes p ++ (p.reverse.takeWhile (fun c => c = '/')).reverse := by
  have h := List.takeWhile_append_dropWhile (p := fun c => decide (c = '/')) (l := p.reverse)
  calc p = p.reverse.reverse := (List.reverse_reverse p).symm
  _ = (p.reverse.takeWhile (fun c => decide (c = '/')) ++
      p.reverse.dropWhile (fun c => decide (c = '/'))).reverse := by rw [h]
  _ = stripTrailingSlashes p ++ (p.reverse.takeWhile (fun c => c = '/')).reverse := by
      rw [List.reverse_append]
      rfl

theorem drop_stripTrailing (p : JSStr) :
    p.drop (stripTrailingSlashes p).length =
      (p.reverse.takeWhile (fun c => c = '/')).reverse := by
  have h := List.drop_left (stripTrailingSlashes p)
    ((p.reverse.takeWhile (fun c => c = '/')).reverse)
  rw [← stripTrailing_decomp p] at h
  exact h

theorem mem_trailRun_slash (p : JSStr) :
    ∀ c ∈ (p.reverse.takeWhile (fun c => c = '/')).reverse, c = '/' := by
  intro c hc
  rw [List.mem_reverse] at hc
  have := List.mem_takeWhile_imp hc
  simpa using this

theorem stripTrailing_append_run {x tr : JSStr} (h : ∀ c ∈ tr, c = '/') :
    stripTrailingSlashes (x ++ tr) = stripTrailingSlashes x := by
  induction tr using List.reverseRecOn with
  | nil => rw [List.append_nil]
  | append_singleton ts c ih =>
    have hc : c = '/' := h c (by simp)
    subst hc
    rw [← List.append_assoc, stripTrailing_append_slash]
    exact ih (fun d hd => h d (by simp [hd]))

theorem dropWhile_append_all {p : Char → Bool} {a b : List Char}
    (h : ∀ x ∈ a, p x = true) : (a ++ b).dropWhile p = b.dropWhile p := by
  induction a with
  | nil => simp
  | cons c cs ih =>
    rw [List.cons_append, List.dropWhile_cons, if_pos (by simp [h c (by simp)])]
    exact ih (fun x hx => h x (by simp [hx]))

theorem dropWhile_cons_false {p : Char → Bool} {c : Char} (l : List Char)
    (h : p c = false) : (c :: l).dropWhile p = c :: l := by
  rw [List.dropWhile_cons, if_neg (by simp [h])]

/-! ### Structure of component extensions -/

theorem extOfComponent_dest {c e : JSStr} (h : extOfComponent c = e) (hne : e ≠ []) :
    ∃ la er, c = la ++ '.' :: er ∧ la ≠ [] ∧ '.' ∉ er ∧ e = '.' :: er ∧
      c ≠ ['.', '.'] := by
  simp only [extOfComponent] at h
  by_cases h1 : (c.reverse.dropWhile (fun x => x ≠ '.')).length ≤ 1
  · rw [if_pos h1] at h
    exact absurd h.symm hne
  · rw [if_neg h1] at h
    by_cases h2 : c = ['.', '.']
    · rw [if_pos h2] at h
      exact absurd h.symm hne
    · rw [if_neg h2] at h
      obtain ⟨a, post, hrest⟩ : ∃ a post,
          c.reverse.dropWhile (fun x => x ≠ '.') = a :: post := by
        cases hr : c.reverse.dropWhile (fun x => x ≠ '.') with
        | nil => rw [hr] at h1; simp at h1
        | cons a post => exact ⟨a, post, rfl⟩
      have ha : a = '.' := by
        have hd := dropWhile_head_false hrest
        simpa using hd
      subst ha
      have hpost : post ≠ [] := by
        intro hp
        rw [hp] at hrest
        rw [hrest] at h1
        simp at h1
      refine ⟨post.reverse, (c.reverse.takeWhile (fun x => x ≠ '.')).reverse, ?_,
        by simpa using hpost, ?_, h.symm, h2⟩
      · have hc : c.reverse = c.reverse.takeWhile (fun x => x ≠ '.') ++ '.' :: post := by
          conv_lhs => rw [← List.takeWhile_append_dropWhile
            (p := fun x => decide (x ≠ '.')) (l := c.reverse)]
          rw [hrest]
        calc c = c.reverse.reverse := (List.reverse_reverse c).symm
        _ = (c.reverse.takeWhile (fun x => x ≠ '.') ++ '.' :: post).reverse := by
            rw [← hc]
        _ = post.reverse ++ '.' :: (c.reverse.takeWhile (fun x => x ≠ '.')).reverse := by
            rw [List.reverse_append, List.reverse_cons]
            simp
      · intro hmem
        rw [List.mem_reverse] at hmem
        have hm := List.mem_takeWhile_imp hmem
        simp at hm

theorem extOfComponent_reassemble {la er : JSStr} (hla : la ≠ []) (her : '.' ∉ er)
    (hne : la ++ '.' :: er ≠ ['.', '.']) :
    extOfComponent (la ++ '.' :: er) = '.' :: er := by
  simp only [extOfComponent]
  have hrev : (la ++ '.' :: er).reverse = er.reverse ++ '.' :: la.reverse := by
    rw [List.reverse_append, List.reverse_cons]
    simp
  rw [hrev]
  have htw : (er.reverse ++ '.' :: la.reverse).takeWhile (fun x => x ≠ '.') =
      er.reverse := by
    rw [takeWhile_append_all (fun x hx => by
      rw [List.mem_reverse] at hx
      have hx' : x ≠ '.' := fun hc => her (hc ▸ hx)
      simpa using hx')]
    rw [takeWhile_cons_false _ (by simp)]
    rw [List.append_nil]
  have hdw : (er.reverse ++ '.' :: la.reverse).dropWhile (fun x => x ≠ '.') =
      '.' :: la.reverse := by
    rw [dropWhile_append_all (fun x hx => by
      rw [List.mem_reverse] at hx
      have hx' : x ≠ '.' := fun hc => her (hc ▸ hx)
      simpa using hx')]
    exact dropWhile_cons_false _ (by simp)
  rw [htw, hdw]
  have hlen : ¬('.' :: la.reverse).length ≤ 1 := by
    obtain ⟨x, xs, hx⟩ : ∃ x xs, la = x :: xs := by
      cases hl : la with
      | nil => exact absurd hl hla
      | cons x xs => exact ⟨x, xs, rfl⟩
    rw [hx]
    simp
  rw [if_neg hlen, if_neg hne, List.reverse_reverse]

/-! ### The extension of a path with its extension lower-cased -/

theorem lastComp_decomp (x : JSStr) :
    ∃ stem, x = stem ++ lastComp x ∧
      stem.reverse.takeWhile (fun c => c ≠ '/') = [] := by
  refine ⟨(x.reverse.dropWhile (fun c => c ≠ '/')).reverse, ?_, ?_⟩
  · calc x = x.reverse.reverse := (List.reverse_reverse x).symm
    _ = (x.reverse.takeWhile (fun c => c ≠ '/') ++
        x.reverse.dropWhile (fun c => c ≠ '/')).reverse := by
        rw [List.takeWhile_append_dropWhile]
    _ = _ := by
        rw [List.reverse_append]
        rfl
  · rw [List.reverse_reverse]
    cases hcase : x.reverse.dropWhile (fun c => c ≠ '/') with
    | nil => rfl
    | cons a rest => exact takeWhile_cons_false _ (dropWhile_head_false hcase)

theorem lastComp_append {stem Y : JSStr}
    (hstem : stem.reverse.takeWhile (fun c => c ≠ '/') = [])
    (hY : ∀ x ∈ Y, x ≠ '/') : lastComp (stem ++ Y) = Y := by
  unfold lastComp
  rw [List.reverse_append]
  rw [takeWhile_append_all (fun x hx => by
    rw [List.mem_reverse] at hx
    simpa using hY x hx)]
  rw [hstem, List.append_nil, List.reverse_reverse]

theorem lowerExtension_of_no_ext {p : JSStr} (h : posixExtname p = []) :
    lowerExtension p = p := by
  simp only [lowerExtension, h]
  rw [show toLowerJS [] = [] from rfl]
  simp only [List.length_nil, Nat.sub_zero, List.take_length, List.append_nil]
  rw [drop_stripTrailing]
  exact (stripTrailing_decomp p).symm

theorem posixExtname_lowerExtension_of_ext {p : JSStr} (hne : posixExtname p ≠ []) :
    posixExtname (lowerExtension p) = toLowerJS (posixExtname p) := by
  have he : extOfComponent (lastComp (stripTrailingSlashes p)) = posixExtname p := rfl
  obtain ⟨la, er, hdecomp, hla, her, heq, hnedot⟩ := extOfComponent_dest he hne
  have hlcfree : ∀ x ∈ lastComp (stripTrailingSlashes p), x ≠ '/' := by
    intro x hm
    unfold lastComp at hm
    rw [List.mem_reverse] at hm
    have hmm := List.mem_takeWhile_imp hm
    simpa using hmm
  have hlafree : '/' ∉ la := fun hm => hlcfree '/' (by rw [hdecomp]; simp [hm]) rfl
  have herfree : '/' ∉ er := fun hm => hlcfree '/' (by rw [hdecomp]; simp [hm]) rfl
  obtain ⟨stem, hsplit, hstem⟩ := lastComp_decomp (stripTrailingSlashes p)
  have hcore_full : stripTrailingSlashes p = (stem ++ la) ++ '.' :: er := by
    rw [hsplit, hdecomp]
    simp
  have hlen_e : (posixExtname p).length = er.length + 1 := by
    rw [heq]
    simp
  have htake : (stripTrailingSlashes p).take
      ((stripTrailingSlashes p).length - (posixExtname p).length) = stem ++ la := by
    conv_lhs => rw [hcore_full]
    rw [hlen_e]
    rw [show (((stem ++ la) ++ '.' :: er)).length =
        (stem ++ la).length + (er.length + 1) by
      rw [List.length_append (stem ++ la), List.length_cons]]
    rw [Nat.add_sub_cancel]
    exact List.take_left _ _
  have htoLower_e : toLowerJS (posixExtname p) = '.' :: toLowerJS er := by
    rw [heq]
    show ('.' :: er).map Char.toLower = '.' :: er.map Char.toLower
    rw [List.map_cons]
    rw [show Char.toLower '.' = '.' by decide]
  have her'_free : '/' ∉ toLowerJS er := by
    intro hm
    obtain ⟨x, hx, hx2⟩ := List.mem_map.mp hm
    exact toLower_ne_slash (fun hc => herfree (hc ▸ hx)) hx2
  have her'_dot : '.' ∉ toLowerJS er := by
    intro hm
    obtain ⟨x, hx, hx2⟩ := List.mem_map.mp hm
    exact toLower_ne_dot (fun hc => her (hc ▸ hx)) hx2
  have hY_ne : la ++ '.' :: toLowerJS er ≠ ['.', '.'] := by
    intro hcontra
    have hlen := congrArg List.length hcontra
    rw [List.length_append, List.length_cons,
      show (toLowerJS er).length = er.length from by simp [toLowerJS],
      show (['.', '.'] : JSStr).length = 2 from rfl] at hlen
    have hla_len : 1 ≤ la.length := by
      cases hl : la with
      | nil => exact absurd hl hla
      | cons _ _ => simp
    have hla1 : la.length = 1 := by omega
    have herlen : er.length = 0 := by omega
    obtain ⟨x, hx⟩ : ∃ x, la = [x] := by
      cases hl : la with
      | nil => exact absurd hl hla
      | cons y ys =>
        have hys : ys = [] := by
          rw [hl] at hla1
          simpa using hla1
        exact ⟨y, by rw [hys]⟩
    have herz : er = [] := List.length_eq_zero.mp herlen
    rw [hx, herz] at hcontra
    simp only [toLowerJS, List.map_nil] at hcontra
    have hxdot : x = '.' := by
      have h3 := congrArg (fun l => l.headD ' ') hcontra
      simpa using h3
    apply hnedot
    rw [hdecomp, hx, herz, hxdot]
    rfl
  have hlow : lowerExtension p =
      ((stem ++ la) ++ '.' :: toLowerJS er) ++
        p.drop (stripTrailingSlashes p).length := by
    simp only [lowerExtension]
    rw [htake, htoLower_e]
  have htr_slash : ∀ c ∈ p.drop (stripTrailingSlashes p).length, c = '/' := by
    rw [drop_stripTrailing]
    exact mem_trailRun_slash p
  have hXlast : (((stem ++ la) ++ '.' :: toLowerJS er)).getLast? ≠ some '/' := by
    rcases List.eq_nil_or_concat (toLowerJS er) with h1 | ⟨es, d, h1⟩
    · rw [h1]
      rw [show ((stem ++ la) ++ [('.' : Char)]).getLast? = some '.' from
        List.getLast?_concat _]
      decide
    · rw [List.concat_eq_append] at h1
      rw [h1]
      rw [show ((stem ++ la) ++ '.' :: (es ++ [d])) =
          (((stem ++ la) ++ '.' :: es) ++ [d]) by simp]
      rw [List.getLast?_concat]
      have hd : d ∈ toLowerJS er := by
        rw [h1]
        simp
      intro hc
      apply her'_free
      rw [show d = '/' by simpa using hc] at hd
      exact hd
  have hstrip : stripTrailingSlashes (lowerExtension p) =
      ((stem ++ la) ++ '.' :: toLowerJS er) := by
    rw [hlow, stripTrailing_append_run htr_slash]
    exact stripTrailing_eq_self hXlast
  have hYfree : ∀ x ∈ la ++ '.' :: toLowerJS er, x ≠ '/' := by
    intro x hx
    rcases List.mem_append.mp hx with h1 | h1
    · exact fun hc => hlafree (hc ▸ h1)
    · rcases List.mem_cons.mp h1 with h2 | h2
      · rw [h2]; decide
      · exact fun hc => her'_free (hc ▸ h2)
  have hlastX : lastComp ((stem ++ la) ++ '.' :: toLowerJS er) =
      la ++ '.' :: toLowerJS er := by
    rw [show ((stem ++ la) ++ '.' :: toLowerJS er) =
        stem ++ (la ++ '.' :: toLowerJS er) by simp]
    exact lastComp_append hstem hYfree
  rw [show posixExtname (lowerExtension p) =
      extOfComponent (lastComp (stripTrailingSlashes (lowerExtension p))) from rfl]
  rw [hstrip, hlastX]
  rw [extOfComponent_reassemble hla her'_dot hY_ne]
  rw [htoLower_e]

theorem getMimeType_lowerExtension (p : JSStr) :
    getMimeType (lowerExtension p) = getMimeType p := by
  by_cases he : posixExtname p = []
  · rw [lowerExtension_of_no_ext he]
  · simp only [getMimeType]
    rw [posixExtname_lowerExtension_of_ext he, toLowerJS_idem]

/-! ### Claim theorems -/

/-- C1: for every input request path, including paths containing `..`
segments, the resolver either returns null or returns an absolute file
location lying within the mirror root: whenever the mirror root is an
absolute path, any returned location starts with the root, is itself
absolute, and contains no `..` segment, so it never denotes a location
outside the mirror root. -/
theorem C1_resolver_stays_within_root (root : JSStr) (ex : JSStr → Bool)
    (p s : JSStr) (hroot : root.head? = some '/')
    (h : resolveSnapshotFile root ex p = some s) :
    root.isPrefixOf s = true ∧ s.head? = some '/' ∧
      ['.', '.'] ∉ splitSep '/' s := by
  simp only [resolveSnapshotFile] at h
  obtain ⟨hpre, c, hmem, hs, hex⟩ := resolveLoop_some h
  obtain ⟨hhead, hnodd⟩ := posixJoin2_abs_parts c hroot
  refine ⟨hpre, ?_, ?_⟩
  · rw [hs]
    exact hhead
  · rw [hs]
    intro hm
    exact hnodd _ hm rfl

/-- C1 witness: a traversal request over a concrete root and
filesystem resolves to a location that starts with the root, is
absolute, and has no `..` segment. -/
theorem C1_witness :
    ("/r".toList).head? = some '/' ∧
    resolveSnapshotFile ("/r".toList) (fun q => q = "/r/etc/passwd.html".toList)
      ("../../etc/passwd".toList) = some ("/r/etc/passwd.html".toList) ∧
    (("/r".toList).isPrefixOf ("/r/etc/passwd.html".toList) = true ∧
      ("/r/etc/passwd.html".toList).head? = some '/' ∧
      ['.', '.'] ∉ splitSep '/' ("/r/etc/passwd.html".toList)) :=
  ⟨by decide, by decide,
    C1_resolver_stays_within_root ("/r".toList)
      (fun q => q = "/r/etc/passwd.html".toList) ("../../etc/passwd".toList)
      ("/r/etc/passwd.html".toList) (by decide) (by decide)⟩

/-- C2 counterexample: the request path `"../secret"` contains a
parent-directory traversal component that would escape the mirror
root, yet resolution does not treat it as unresolved before candidate
lookup: the clamped path `secret` resolves against an existing
`secret.html`, and the server answers status 200, not 404, so the
claim as stated is false. -/
theorem C2_counterexample :
    wouldEscape ("../secret".toList) ∧
    resolveSnapshotFile ("/r".toList)
      (fun q => ((fun q' => if q' = "/r/secret.html".toList
        then some ("data".toList) else none) q).isSome)
      ("../secret".toList) ≠ none ∧
    (serveFile ("/r".toList)
      (fun q => if q = "/r/secret.html".toList then some ("data".toList) else none)
      ("../secret".toList) false).status = 200 :=
  ⟨by decide, by decide, by decide⟩

/-- C2 amended: for every request path containing a parent-directory
traversal component that would escape the mirror root, the traversal
is absorbed by root-clamped normalization rather than rejected: any
location the resolver returns still starts with the mirror root, and
whenever the clamped path does not resolve, the server returns the
fixed 404 plain-text "Not Found" response — the very response it
returns for every other unresolved path — and never surfaces an
exception, so the two cases are indistinguishable to the caller. -/
theorem C2_traversal_absorbed_uniform_404 (root : JSStr)
    (fs : JSStr → Option JSStr) (p : JSStr) (headOnly : Bool)
    (_hesc : wouldEscape p) :
    (∀ s, resolveSnapshotFile root (fun q => (fs q).isSome) p = some s →
      root.isPrefixOf s = true) ∧
    (resolveSnapshotFile root (fun q => (fs q).isSome) p = none →
      serveFile root fs p headOnly = notFoundResponse ∧
      (serveFile root fs p headOnly).status = 404 ∧
      ∀ q, resolveSnapshotFile root (fun q' => (fs q').isSome) q = none →
        serveFile root fs q headOnly = serveFile root fs p headOnly) := by
  constructor
  · intro s h
    simp only [resolveSnapshotFile] at h
    exact (resolveLoop_some h).1
  · intro hnone
    have h1 : serveFile root fs p headOnly = notFoundResponse := by
      simp only [serveFile, hnone]
    refine ⟨h1, by rw [h1]; rfl, ?_⟩
    intro q hq
    rw [h1]
    simp only [serveFile, hq]

/-- C2 witness: over a concrete empty filesystem, the traversal path
`"../nope"` is unresolved and served exactly like the plain missing
path `"missing"`, with status 404. -/
theorem C2_witness :
    wouldEscape ("../nope".toList) ∧
    resolveSnapshotFile ("/r".toList)
      (fun q => ((fun _ : JSStr => (none : Option JSStr)) q).isSome)
      ("../nope".toList) = none ∧
    serveFile ("/r".toList) (fun _ => none) ("../nope".toList) false =
      notFoundResponse ∧
    (serveFile ("/r".toList) (fun _ => none) ("../nope".toList) false).status = 404 ∧
    serveFile ("/r".toList) (fun _ => none) ("missing".toList) false =
      serveFile ("/r".toList) (fun _ => none) ("../nope".toList) false := by
  have h := C2_traversal_absorbed_uniform_404 ("/r".toList)
    (fun _ => none) ("../nope".toList) false (by decide)
  have h2 := h.2 (by decide)
  exact ⟨by decide, by decide, h2.1, h2.2.1, h2.2.2 ("missing".toList) (by decide)⟩

/-- C3 counterexample: with the mirror containing only `a.html`, the
request path `"a/"` resolves to `a.html` — the route computes its
candidates from the sanitized, trailing-slash-trimmed path — while the
ordered fallback of the claim, applied to the unmodified request path,
finds no candidate at all, so the claim as stated is false. -/
theorem C3_counterexample :
    resolveSnapshotFile ("/r".toList) (fun q => q = "/r/a.html".toList)
      ("a/".toList) = some ("/r/a.html".toList) ∧
    claimedResolve ("/r".toList) (fun q => q = "/r/a.html".toList)
      ("a/".toList) = none ∧
    resolveSnapshotFile ("/r".toList) (fun q => q = "/r/a.html".toList)
      ("a/".toList) ≠
      claimedResolve ("/r".toList) (fun q => q = "/r/a.html".toList)
        ("a/".toList) :=
  ⟨by decide, by decide, by decide⟩

/-- C3 amended: for every request path and every existing-file
predicate, over a normalized absolute mirror root, the resolver
returns the first existing candidate of the ordered fallback applied
to the sanitized request path (POSIX-normalized with `..` clamped at
the root, leading and trailing slashes removed; the no-extension test
is made before trailing-slash removal): (1) the sanitized path;
(2) the sanitized path + ".html", only if there is no extension;
(3) the sanitized path + "/index.html", only if there is no extension;
(4) "index.html" for an empty sanitized path; and null if no candidate
exists. -/
theorem C3_ordered_fallback_sanitized (root : JSStr) (ex : JSStr → Bool)
    (p : JSStr) (hroot : isNormalRoot root) :
    resolveSnapshotFile root ex p = claimedResolveSanitized root ex p :=
  resolve_sanitized_fallback hroot ex p

/-- C3 witness: the amended fallback agrees with the route on the
counterexample input over a concrete normalized root. -/
theorem C3_witness :
    isNormalRoot ("/r".toList) ∧
    resolveSnapshotFile ("/r".toList) (fun q => q = "/r/a.html".toList)
      ("a/".toList) =
      claimedResolveSanitized ("/r".toList) (fun q => q = "/r/a.html".toList)
        ("a/".toList) :=
  ⟨⟨["r".toList], by decide, by decide, by decide⟩,
    C3_ordered_fallback_sanitized ("/r".toList)
      (fun q => q = "/r/a.html".toList) ("a/".toList)
      ⟨["r".toList], by decide, by decide, by decide⟩⟩

/-- C4 counterexample: with the mirror containing both `a/b.html` and
`a/b/index.html`, the request path `"a/b/"` resolves to `a/b.html`,
not to `a/b/index.html` as the claim states: the `.html` candidate
precedes the `index.html` candidate regardless of the trailing
slash. -/
theorem C4_counterexample :
    (fun q => q = "/r/a/b.html".toList || q = "/r/a/b/index.html".toList)
      ("/r/a/b.html".toList) = true ∧
    (fun q => q = "/r/a/b.html".toList || q = "/r/a/b/index.html".toList)
      ("/r/a/b/index.html".toList) = true ∧
    resolveSnapshotFile ("/r".toList)
      (fun q => q = "/r/a/b.html".toList || q = "/r/a/b/index.html".toList)
      ("a/b/".toList) = some ("/r/a/b.html".toList) ∧
    resolveSnapshotFile ("/r".toList)
      (fun q => q = "/r/a/b.html".toList || q = "/r/a/b/index.html".toList)
      ("a/b/".toList) ≠ some ("/r/a/b/index.html".toList) :=
  ⟨by decide, by decide, by decide, by decide⟩

/-- C4 amended: over a normalized absolute mirror root, if the mirror
contains the file `a/b.html` (and no file literally named `a/b`), the
request path "a/b" resolves to `a/b.html`, and the request path
"a/b/" also resolves to `a/b.html` even when `a/b/index.html` exists;
"a/b/" resolves to `a/b/index.html` only when neither `a/b` nor
`a/b.html` exists. -/
theorem C4_html_candidate_precedes_index (root : JSStr) (ex : JSStr → Bool)
    (hroot : isNormalRoot root)
    (hab : ex (root ++ "/a/b".toList) = false) :
    (ex (root ++ "/a/b.html".toList) = true →
      resolveSnapshotFile root ex ("a/b".toList) =
        some (root ++ "/a/b.html".toList) ∧
      resolveSnapshotFile root ex ("a/b/".toList) =
        some (root ++ "/a/b.html".toList)) ∧
    (ex (root ++ "/a/b.html".toList) = false →
      ex (root ++ "/a/b/index.html".toList) = true →
      resolveSnapshotFile root ex ("a/b/".toList) =
        some (root ++ "/a/b/index.html".toList)) := by
  have hplaincands : ∀ c ∈ [("a/b".toList : JSStr), "a/b.html".toList,
      "a/b/index.html".toList], plainStr c := by
    intro c hc
    rcases List.mem_cons.mp hc with h | h
    · rw [h]; decide
    · rcases List.mem_cons.mp h with h' | h'
      · rw [h']; decide
      · rw [List.mem_singleton.mp h']; decide
  have key : ∀ q : JSStr, q = "a/b".toList ∨ q = "a/b/".toList →
      resolveSnapshotFile root ex q =
        List.find? ex [root ++ "/a/b".toList, root ++ "/a/b.html".toList,
          root ++ "/a/b/index.html".toList] := by
    intro q hq
    have hloop : resolveSnapshotFile root ex q =
        resolveLoop root ex ["a/b".toList, "a/b.html".toList,
          "a/b/index.html".toList] := by
      rcases hq with rfl | rfl <;> rfl
    rw [hloop, resolveLoop_plain hroot ex hplaincands]
    rfl
  constructor
  · intro hbh
    constructor
    · rw [key ("a/b".toList) (Or.inl rfl)]
      rw [List.find?_cons_of_neg _ (by rw [hab]; simp)]
      rw [List.find?_cons_of_pos _ hbh]
    · rw [key ("a/b/".toList) (Or.inr rfl)]
      rw [List.find?_cons_of_neg _ (by rw [hab]; simp)]
      rw [List.find?_cons_of_pos _ hbh]
  · intro hbh hidx
    rw [key ("a/b/".toList) (Or.inr rfl)]
    rw [List.find?_cons_of_neg _ (by rw [hab]; simp)]
    rw [List.find?_cons_of_neg _ (by rw [hbh]; simp)]
    rw [List.find?_cons_of_pos _ hidx]

/-- C4 witness: on a concrete root, "a/b/" resolves to `a/b.html` when
both files exist, and to `a/b/index.html` when only the index
exists. -/
theorem C4_witness :
    isNormalRoot ("/r".toList) ∧
    resolveSnapshotFile ("/r".toList)
      (fun q => q = "/r/a/b.html".toList || q = "/r/a/b/index.html".toList)
      ("a/b/".toList) = some ("/r/a/b.html".toList) ∧
    resolveSnapshotFile ("/r".toList) (fun q => q = "/r/a/b/index.html".toList)
      ("a/b/".toList) = some ("/r/a/b/index.html".toList) := by
  have hroot : isNormalRoot ("/r".toList) :=
    ⟨["r".toList], by decide, by decide, by decide⟩
  have h1 := (C4_html_candidate_precedes_index ("/r".toList)
    (fun q => q = "/r/a/b.html".toList || q = "/r/a/b/index.html".toList)
    hroot (by decide)).1 (by decide)
  have h2 := (C4_html_candidate_precedes_index ("/r".toList)
    (fun q => q = "/r/a/b/index.html".toList)
    hroot (by decide)).2 (by decide) (by decide)
  exact ⟨hroot, h1.2, h2⟩

/-- C5: for every request path, if the path resolves then GET returns
status 200 with the `cache-control: public, max-age=0` and
`content-type` headers plus the file body, and HEAD returns the same
status and headers with an empty body; if the path does not resolve,
both GET and HEAD return status 404 with the plain-text body
"Not Found". -/
theorem C5_get_head_responses (root : JSStr) (fs : JSStr → Option JSStr)
    (pathname : JSStr) :
    (∀ f, resolveSnapshotFile root (fun q => (fs q).isSome)
        (getRequestPath pathname) = some f →
      GET root fs pathname =
        { status := 200,
          headers := [("cache-control".toList, "public, max-age=0".toList),
                      ("content-type".toList, getMimeType f)],
          body := fs f } ∧
      HEAD root fs pathname =
        { status := 200,
          headers := [("cache-control".toList, "public, max-age=0".toList),
                      ("content-type".toList, getMimeType f)],
          body := none }) ∧
    (resolveSnapshotFile root (fun q => (fs q).isSome)
        (getRequestPath pathname) = none →
      GET root fs pathname =
        { status := 404,
          headers := [("content-type".toList, "text/plain;charset=UTF-8".toList)],
          body := some ("Not Found".toList) } ∧
      HEAD root fs pathname =
        { status := 404,
          headers := [("content-type".toList, "text/plain;charset=UTF-8".toList)],
          body := some ("Not Found".toList) }) := by
  constructor
  · intro f hf
    constructor
    · simp only [GET, serveFile, hf, Bool.false_eq_true, if_false]
    · simp only [HEAD, serveFile, hf, if_true]
  · intro hn
    constructor
    · simp only [GET, serveFile, hn]
      rfl
    · simp only [HEAD, serveFile, hn]
      rfl

/-- C5 witness: concrete GET and HEAD responses for a resolving path
and for an unresolved path. -/
theorem C5_witness :
    resolveSnapshotFile ("/r".toList)
      (fun q => (((fun q' => if q' = "/r/index.html".toList
        then some ("<html>".toList) else none) : JSStr → Option JSStr) q).isSome)
      (getRequestPath ("/www.anthropic.com/".toList)) =
        some ("/r/index.html".toList) ∧
    GET ("/r".toList)
      (fun q' => if q' = "/r/index.html".toList
        then some ("<html>".toList) else none)
      ("/www.anthropic.com/".toList) =
      { status := 200,
        headers := [("cache-control".toList, "public, max-age=0".toList),
                    ("content-type".toList,
                      getMimeType ("/r/index.html".toList))],
        body := (fun q' => if q' = "/r/index.html".toList
          then some ("<html>".toList) else none) ("/r/index.html".toList) } ∧
    HEAD ("/r".toList)
      (fun q' => if q' = "/r/index.html".toList
        then some ("<html>".toList) else none)
      ("/www.anthropic.com/".toList) =
      { status := 200,
        headers := [("cache-control".toList, "public, max-age=0".toList),
                    ("content-type".toList,
                      getMimeType ("/r/index.html".toList))],
        body := none } ∧
    GET ("/r".toList) (fun _ => none) ("/www.anthropic.com/zzz".toList) =
      { status := 404,
        headers := [("content-type".toList, "text/plain;charset=UTF-8".toList)],
        body := some ("Not Found".toList) } ∧
    HEAD ("/r".toList) (fun _ => none) ("/www.anthropic.com/zzz".toList) =
      { status := 404,
        headers := [("content-type".toList, "text/plain;charset=UTF-8".toList)],
        body := some ("Not Found".toList) } := by
  have h1 := (C5_get_head_responses ("/r".toList)
    (fun q' => if q' = "/r/index.html".toList
      then some ("<html>".toList) else none)
    ("/www.anthropic.com/".toList)).1 ("/r/index.html".toList) (by decide)
  have h2 := (C5_get_head_responses ("/r".toList) (fun _ => none)
    ("/www.anthropic.com/zzz".toList)).2 (by decide)
  exact ⟨by decide, h1.1, h1.2, h2.1, h2.2⟩

/-- C6 counterexample: the file `logo.PNG` has extension `.PNG`, which
is absent from `MIME_BY_EXT`, yet the content type is `image/png`
rather than the generic binary type, because the route lower-cases the
extension before the lookup; the claim as stated is therefore false
for upper-case extensions. -/
theorem C6_counterexample :
    posixExtname ("logo.PNG".toList) = ".PNG".toList ∧
    MIME_BY_EXT.lookup (".PNG".toList) = none ∧
    getMimeType ("logo.PNG".toList) = "image/png".toList ∧
    getMimeType ("logo.PNG".toList) ≠ "application/octet-stream".toList :=
  ⟨by decide, by decide, by decide, by decide⟩

/-- C6 amended: for every file path, the content type equals the entry
of the fixed extension-to-type table for the file's extension
lower-cased, and whenever the lower-cased extension is absent from the
table the content type is the generic binary type
`application/octet-stream`. -/
theorem C6_mime_from_lowercased_table (f t : JSStr) :
    (MIME_BY_EXT.lookup (toLowerJS (posixExtname f)) = some t →
      getMimeType f = t) ∧
    (MIME_BY_EXT.lookup (toLowerJS (posixExtname f)) = none →
      getMimeType f = "application/octet-stream".toList) := by
  constructor
  · intro h
    simp only [getMimeType, h]
  · intro h
    simp only [getMimeType, h]

/-- C6 witness: a hit in the table (`.PNG` lower-cased to `.png`) and a
miss (`.weird`) evaluated concretely. -/
theorem C6_witness :
    (MIME_BY_EXT.lookup (toLowerJS (posixExtname ("logo.PNG".toList))) =
      some ("image/png".toList) ∧
      getMimeType ("logo.PNG".toList) = "image/png".toList) ∧
    (MIME_BY_EXT.lookup (toLowerJS (posixExtname ("data.weird".toList))) = none ∧
      getMimeType ("data.weird".toList) = "application/octet-stream".toList) :=
  ⟨⟨by decide,
    (C6_mime_from_lowercased_table ("logo.PNG".toList)
      ("image/png".toList)).1 (by decide)⟩,
   ⟨by decide,
    (C6_mime_from_lowercased_table ("data.weird".toList)
      ("image/png".toList)).2 (by decide)⟩⟩

/-- C7: the Snapshot Resolver is deterministic and stateless: two
evaluations on the same request path return the same result, and the
result depends on nothing other than the request path, the root, and
the pointwise behaviour of the existing-file predicate. -/
theorem C7_resolver_deterministic (root : JSStr) (ex1 ex2 : JSStr → Bool)
    (p : JSStr) (h : ∀ q, ex1 q = ex2 q) :
    resolveSnapshotFile root ex1 p = resolveSnapshotFile root ex1 p ∧
    resolveSnapshotFile root ex1 p = resolveSnapshotFile root ex2 p := by
  have hfun : ex1 = ex2 := funext h
  rw [hfun]
  exact ⟨rfl, rfl⟩

/-- C7 witness: determinism and predicate-extensionality of the
resolver at a concrete root, predicate and path. -/
theorem C7_witness :
    resolveSnapshotFile ("/r".toList) (fun q => q = "/r/a.html".toList)
      ("a".toList) =
      resolveSnapshotFile ("/r".toList) (fun q => q = "/r/a.html".toList)
        ("a".toList) ∧
    resolveSnapshotFile ("/r".toList) (fun q => q = "/r/a.html".toList)
      ("a".toList) =
      resolveSnapshotFile ("/r".toList)
        (fun q => decide (q = "/r/a.html".toList) && true) ("a".toList) :=
  C7_resolver_deterministic ("/r".toList) (fun q => q = "/r/a.html".toList)
    (fun q => decide (q = "/r/a.html".toList) && true) ("a".toList)
    (fun q => by simp)

/-- C8: the Snapshot Resolver ignores trailing slashes: for every
request path and every existing-file predicate, the path followed by
"/" resolves to exactly the same result as the path itself. -/
theorem C8_trailing_slash_ignored (root : JSStr) (ex : JSStr → Bool) (p : JSStr) :
    resolveSnapshotFile root ex (p ++ ['/']) = resolveSnapshotFile root ex p := by
  rw [resolveSnapshotFile_eq_core, resolveSnapshotFile_eq_core,
    pathStack_append_slash]

/-- C9: parent-directory segments are absorbed by POSIX normalization
rooted at "/" rather than causing rejection: resolution of any path
equals resolution of the normalization of "/" + path with leading
slashes stripped, and a path consisting only of ".." segments
resolves exactly like the empty path. -/
theorem C9_traversal_normalized (root : JSStr) (ex : JSStr → Bool) :
    (∀ p, resolveSnapshotFile root ex p =
      resolveSnapshotFile root ex
        (stripLeadingSlashes (posixNormalize ('/' :: p)))) ∧
    (∀ k, resolveSnapshotFile root ex
        (joinSep '/' (List.replicate k ("..".toList))) =
      resolveSnapshotFile root ex []) := by
  constructor
  · intro p
    rw [resolveSnapshotFile_eq_core, resolveSnapshotFile_eq_core]
    congr 1
    rw [stripLead_normalize_eq]
    by_cases hst : pathStack p = []
    · rw [if_pos hst, hst, pathStack_nil]
    · rw [if_neg hst]
      exact (pathStack_of_plain_join (pathStack_plain p) hst
        (by split <;> simp)).symm
  · intro k
    rw [resolveSnapshotFile_eq_core, resolveSnapshotFile_eq_core]
    congr 1
    rw [show ("..".toList : JSStr) = ['.', '.'] from rfl]
    rw [pathStack_dotdot, pathStack_nil]

/-- C10: content-type lookup is case-insensitive in the file
extension: for every file path, `getMimeType` of the path with its
extension lower-cased equals `getMimeType` of the path itself, and in
particular a file ending in ".PNG" is served as image/png. -/
theorem C10_mime_extension_case_insensitive :
    (∀ p, getMimeType (lowerExtension p) = getMimeType p) ∧
    getMimeType ("logo.PNG".toList) = "image/png".toList ∧
    lowerExtension ("logo.PNG".toList) = "logo.png".toList :=
  ⟨getMimeType_lowerExtension, by decide, by decide⟩
